import Mathlib

/-
Verification of the libreauth password-hashing core.

This file gives a shallow embedding, in Lean 4, of the password-hashing
pipeline of the libreauth repository and of its PHC storage-format codec:

  * `src/pass/phc.rs`  -- the grammar-based parser and serializer of the
    `$id$k=v,...$salt$hash` record format (nom 4 combinators over
    `CompleteByteSlice`), embedded as executable functions over `List Nat`
    byte strings;
  * `src/pass/mod.rs`  -- the `Hasher` / `HashBuilder` pipeline:
    length policy, normalization dispatch, record assembly, `from_phc`,
    `finalize`, `is_valid`, `needs_update` and the builder setters.

External collaborators which the repository consumes but whose code is not
part of the core (the concrete argon2/pbkdf2 capabilities, the Unicode
normalization functions, HMAC-SHA512 and the random-byte source) are
modelled as explicit parameters, following the interfaces in the spec.

Bytes are `Nat`s (byte values 0..255 where it matters), byte strings are
`List Nat`.  Fallible operations return `Option` or `Except ErrorCode`,
mirroring `Result` in the source.
-/

/-! ## Byte-class predicates (phc.rs `is_b64`, `is_id_char`, ...) -/

/-- Byte class of the base64 alphabet without padding (phc.rs `is_b64`). -/
def is_b64 (chr : Nat) : Bool :=
  (65 ≤ chr && chr ≤ 90) ||   -- A-Z
  (97 ≤ chr && chr ≤ 122) ||  -- a-z
  (48 ≤ chr && chr ≤ 57) ||   -- 0-9
  chr == 43 ||                -- +
  chr == 47                   -- /

/-- Byte class of record identifiers (phc.rs `is_id_char`): `[a-z0-9-]`. -/
def is_id_char (chr : Nat) : Bool :=
  (97 ≤ chr && chr ≤ 122) ||
  (48 ≤ chr && chr ≤ 57) ||
  chr == 45

/-- Byte class of parameter names (phc.rs `is_param_name_char`): `[a-z0-9-]`. -/
def is_param_name_char (chr : Nat) : Bool :=
  (97 ≤ chr && chr ≤ 122) ||
  (48 ≤ chr && chr ≤ 57) ||
  chr == 45

/-- Byte class of parameter values (phc.rs `is_param_value_char`):
letters, digits, plus, dash, dot, slash. -/
def is_param_value_char (chr : Nat) : Bool :=
  (65 ≤ chr && chr ≤ 90) ||
  (97 ≤ chr && chr ≤ 122) ||
  (48 ≤ chr && chr ≤ 57) ||
  chr == 43 ||
  chr == 45 ||
  chr == 46 ||
  chr == 47

/-! ## ASCII strings and the UTF-8 byte view

Rust's `str::as_bytes` / `String::into_bytes` expose the UTF-8 encoding of
a string; `str::len` is its length.  We model the encoding explicitly over
code points so that the byte view is a plain executable function. -/

/-- UTF-8 encoding of a single code point (given as a `Nat`). -/
def utf8EncodeChar (c : Nat) : List Nat :=
  if c < 128 then [c]
  else if c < 2048 then [192 + c / 64, 128 + c % 64]
  else if c < 65536 then [224 + c / 4096, 128 + (c / 64) % 64, 128 + c % 64]
  else [240 + c / 262144, 128 + (c / 4096) % 64, 128 + (c / 64) % 64, 128 + c % 64]

/-- UTF-8 encoding of a list of characters. -/
def listUtf8 : List Char → List Nat
  | [] => []
  | c :: t => utf8EncodeChar c.toNat ++ listUtf8 t

/-- The UTF-8 bytes of a string (Rust `as_bytes` / `into_bytes`). -/
def utf8Bytes (s : String) : List Nat := listUtf8 s.data

/-- Rebuild a string from bytes; used for the ASCII fragments produced by
the PHC grammar (Rust `String::from_utf8(..).unwrap()` on byte runs drawn
from 7-bit classes). -/
def bytesToString (l : List Nat) : String := ⟨l.map Char.ofNat⟩

/-! ## Decimal rendering and parsing of unsigned integers

Models Rust's `format!` of a `usize` and `str::parse::<usize>()` (an
optional leading `+`, then one or more ASCII digits). -/

/-- Fuel-driven digit loop (structural, so that it evaluates in the
kernel); the fuel only needs to exceed the number of digits. -/
def natToDigitsAux : Nat → Nat → List Nat
  | 0, _ => []
  | fuel + 1, n =>
      if n < 10 then [48 + n]
      else natToDigitsAux fuel (n / 10) ++ [48 + n % 10]

/-- Decimal digit bytes of `n`, most significant first. -/
def natToDigits (n : Nat) : List Nat := natToDigitsAux (n + 1) n

/-- Decimal rendering of `n` as a string (Rust `format!` on `usize`). -/
def natToStr (n : Nat) : String := bytesToString (natToDigits n)

/-- Accumulator loop reading decimal digit bytes. -/
def digitsToNatAux : Nat → List Nat → Option Nat
  | acc, [] => some acc
  | acc, d :: t =>
      if 48 ≤ d ∧ d ≤ 57 then digitsToNatAux (acc * 10 + (d - 48)) t else none

/-- Value of a non-empty run of decimal digit bytes. -/
def digitsToNat : List Nat → Option Nat
  | [] => none
  | l => digitsToNatAux 0 l

/-- Model of Rust `str::parse::<usize>()`: optional leading `+`, then one
or more decimal digits. -/
def parseUsize (s : String) : Option Nat :=
  match utf8Bytes s with
  | 43 :: t => digitsToNat t
  | l => digitsToNat l

/-! ## Base64, standard alphabet, no padding (the `base64` crate with
`STANDARD_NO_PAD`, as used by phc.rs `from_b64` / `to_b64`) -/

/-- Byte of the base64 alphabet for a sextet. -/
def b64Alphabet (s : Nat) : Nat :=
  if s < 26 then 65 + s
  else if s < 52 then 97 + (s - 26)
  else if s < 62 then 48 + (s - 52)
  else if s = 62 then 43
  else 47

/-- Sextet of a base64 alphabet byte, `none` outside the alphabet. -/
def b64Sextet (b : Nat) : Option Nat :=
  if 65 ≤ b ∧ b ≤ 90 then some (b - 65)
  else if 97 ≤ b ∧ b ≤ 122 then some (b - 97 + 26)
  else if 48 ≤ b ∧ b ≤ 57 then some (b - 48 + 52)
  else if b = 43 then some 62
  else if b = 47 then some 63
  else none

/-- Sextet stream of a byte string (three bytes to four sextets, with the
unpadded partial tail). -/
def encChunks : List Nat → List Nat
  | [] => []
  | [a] => [a / 4, a % 4 * 16]
  | [a, b] => [a / 4, a % 4 * 16 + b / 16, b % 16 * 4]
  | a :: b :: c :: rest =>
      a / 4 :: (a % 4 * 16 + b / 16) :: (b % 16 * 4 + c / 64) :: c % 64 ::
        encChunks rest

/-- Base64 encoding without padding (the crate's `encode_config` with
`STANDARD_NO_PAD`). -/
def encodeB64 (v : List Nat) : List Nat := (encChunks v).map b64Alphabet

/-- Byte stream of a sextet stream; fails on a tail of length 1
(the crate's invalid-length error). -/
def decChunks : List Nat → Option (List Nat)
  | [] => some []
  | [_] => none
  | [a, b] => some [a * 4 + b / 16]
  | [a, b, c] => some [a * 4 + b / 16, b % 16 * 16 + c / 4]
  | a :: b :: c :: d :: rest =>
      match decChunks rest with
      | some bs => some ((a * 4 + b / 16) :: (b % 16 * 16 + c / 4) :: (c % 4 * 64 + d) :: bs)
      | none => none

/-- Map every byte to its sextet, failing on a byte outside the alphabet. -/
def sextets : List Nat → Option (List Nat)
  | [] => some []
  | b :: t =>
      match b64Sextet b with
      | some s => match sextets t with
                  | some ss => some (s :: ss)
                  | none => none
      | none => none

/-- Base64 decoding without padding (the crate's `decode_config` with
`STANDARD_NO_PAD`). -/
def decodeB64 (l : List Nat) : Option (List Nat) :=
  match sextets l with
  | some ss => decChunks ss
  | none => none

/-- Decode an optional raw base64 segment (phc.rs `from_b64`): absent or
empty or undecodable input yields `none`. -/
def from_b64 : Option (List Nat) → Option (List Nat)
  | some v =>
      match v with
      | [] => none
      | _ => match decodeB64 v with
             | some r => some r
             | none => none
  | none => none

/-- Serialize bytes as a base64 string (phc.rs `to_b64`). -/
def to_b64 (data : List Nat) : String := bytesToString (encodeB64 data)

/-! ## The PHC record parser (phc.rs, nom 4 over `CompleteByteSlice`)

Each combinator is a function `List Nat → Option (result × remaining)`.
`opt!`/`cond!` swallow the failure of the wrapped parser (yielding `none`
and consuming nothing), which is the nom behaviour the repository's own
tests pin down (`"$dummy$i=42$YXN1cmUu"` parses with an absent hash). -/

/-- Consume a `$` (nom `tag!("$")`). -/
def tagDollar : List Nat → Option (List Nat)
  | 36 :: t => some t
  | _ => none

/-- Consume a `=` (nom `tag!("=")`). -/
def tagEq : List Nat → Option (List Nat)
  | 61 :: t => some t
  | _ => none

/-- Longest (possibly empty) prefix of bytes satisfying `p`
(nom `take_while!`). -/
def takeW (p : Nat → Bool) (l : List Nat) : List Nat × List Nat :=
  (l.takeWhile p, l.dropWhile p)

/-- Longest non-empty prefix of bytes satisfying `p`, failing when the
first byte does not satisfy it (nom `take_while1!`). -/
def takeW1 (p : Nat → Bool) (l : List Nat) : Option (List Nat × List Nat) :=
  match l with
  | [] => none
  | b :: _ => if p b then some (l.takeWhile p, l.dropWhile p) else none

/-- Parse `$` followed by a non-empty identifier (phc.rs `get_id`). -/
def get_id (l : List Nat) : Option (String × List Nat) :=
  match tagDollar l with
  | none => none
  | some r =>
      match takeW1 is_id_char r with
      | none => none
      | some (idb, rest) => some (bytesToString idb, rest)

/-- Parse `$` followed by a possibly empty base64 run, returned raw
(phc.rs `get_phc_part`). -/
def get_phc_part (l : List Nat) : Option (List Nat × List Nat) :=
  match tagDollar l with
  | none => none
  | some r => some (takeW is_b64 r)

/-- Parse one `name=value` element with an optional trailing comma
(phc.rs `get_param_elem`). -/
def get_param_elem (l : List Nat) : Option ((String × String) × List Nat) :=
  match takeW1 is_param_name_char l with
  | none => none
  | some (nb, r1) =>
      match tagEq r1 with
      | none => none
      | some r2 =>
          match takeW1 is_param_value_char r2 with
          | none => none
          | some (vb, r3) =>
              let r4 := match r3 with
                        | 44 :: t => t
                        | _ => r3
              some ((bytesToString nb, bytesToString vb), r4)

/-- Insert into an association list, replacing an existing binding
(`HashMap::insert`). -/
def insertParam : List (String × String) → String → String → List (String × String)
  | [], k, v => [(k, v)]
  | (k', v') :: t, k, v =>
      if k' = k then (k, v) :: t else (k', v') :: insertParam t k v

/-- Fold `get_param_elem` as long as it succeeds, inserting each pair
(phc.rs `get_params`, nom `fold_many0!`).  The fuel starts at the input
length; every successful element consumes at least one byte, so the fuel
never runs out before the element fails. -/
def getParamsAux : Nat → List (String × String) → List Nat →
    List (String × String) × List Nat
  | 0, acc, l => (acc, l)
  | fuel + 1, acc, l =>
      match get_param_elem l with
      | none => (acc, l)
      | some (kv, r) => getParamsAux fuel (insertParam acc kv.1 kv.2) r

/-- Parse a parameter list (phc.rs `get_params`). -/
def get_params (l : List Nat) : List (String × String) × List Nat :=
  getParamsAux l.length [] l

/-- Parse `$` followed by a possibly empty parameter list
(phc.rs `parse_params`). -/
def parse_params (l : List Nat) : Option (List (String × String) × List Nat) :=
  match tagDollar l with
  | none => none
  | some r => some (get_params r)

/-- Raw segments recognised by `get_phc`, before base64 decoding. -/
structure PHCRaw where
  id : String
  params : Option (List (String × String))
  rawSalt : Option (List Nat)
  rawHash : Option (List Nat)
deriving DecidableEq

/-- Parse a whole record into its raw segments (phc.rs `get_phc`): the
salt segment is attempted only when a parameter segment was present, the
hash segment only when a salt segment was present; a failing optional
segment is swallowed. -/
def get_phc (l : List Nat) : Option (PHCRaw × List Nat) :=
  match get_id l with
  | none => none
  | some (ids, r1) =>
      match parse_params r1 with
      | none => some (⟨ids, none, none, none⟩, r1)
      | some (ps, r2) =>
          match get_phc_part r2 with
          | none => some (⟨ids, some ps, none, none⟩, r2)
          | some (sb, r3) =>
              match get_phc_part r3 with
              | none => some (⟨ids, some ps, some sb, none⟩, r3)
              | some (hb, r4) => some (⟨ids, some ps, some sb, some hb⟩, r4)

/-- The parsed record (phc.rs `PHCData`): identifier, parameter mapping,
optional decoded salt and hash. -/
structure PHCData where
  id : String
  parameters : List (String × String)
  salt : Option (List Nat)
  hash : Option (List Nat)
deriving DecidableEq

/-- Build a `PHCData` from raw segments, decoding the base64 parts
(the record construction inside phc.rs `get_phc`). -/
def mkPHC (r : PHCRaw) : PHCData :=
  { id := r.id
    parameters := match r.params with
                  | some p => p
                  | none => []
    salt := from_b64 r.rawSalt
    hash := from_b64 r.rawHash }

/-- Parse a byte string into a record, requiring the whole input to be
consumed (phc.rs `PHCData::from_bytes`; `Err(())` is `none`). -/
def PHCData.from_bytes (s : List Nat) : Option PHCData :=
  match get_phc s with
  | some (v, r) =>
      match r with
      | [] => some (mkPHC v)
      | _ => none
  | none => none

/-- Comma-separated rendering of the parameter elements after the first. -/
def paramsStringTail : List (String × String) → String
  | [] => ""
  | (k, v) :: t => "," ++ k ++ "=" ++ v ++ paramsStringTail t

/-- Comma-separated rendering of a parameter list
(the loop in phc.rs `PHCData::to_string`). -/
def paramsString : List (String × String) → String
  | [] => ""
  | (k, v) :: t => k ++ "=" ++ v ++ paramsStringTail t

/-- Serialize a record (phc.rs `PHCData::to_string`): `$id`, then, unless
the parameter mapping is empty and no salt is present, `$` and the
parameters, then the salt and, only when the salt is present, the hash.
Fails only on an empty identifier. -/
def PHCData.to_string (d : PHCData) : Option String :=
  if d.id = "" then none
  else
    let res := "$" ++ d.id
    if d.parameters = [] ∧ d.salt = none then some res
    else
      let res := res ++ "$" ++ paramsString d.parameters
      match d.salt with
      | some s =>
          let res := res ++ "$" ++ to_b64 s
          match d.hash with
          | some h => some (res ++ "$" ++ to_b64 h)
          | none => some res
      | none => some res

/-! ## The hashing pipeline (mod.rs) -/

/-- Algorithms available to hash the password (mod.rs `Algorithm`). -/
inductive Algorithm where
  | Argon2
  | Pbkdf2
deriving DecidableEq

/-- Error codes of the pass module (mod.rs `ErrorCode`). -/
inductive ErrorCode where
  | Success
  | PasswordTooShort
  | PasswordTooLong
  | InvalidPasswordFormat
  | IncompatibleOption
  | NotEnoughSpace
  | NullPtr
deriving DecidableEq

/-- Methods to calculate the length of a UTF-8 string
(mod.rs `LengthCalculationMethod`). -/
inductive LengthCalculationMethod where
  | Bytes
  | Characters
deriving DecidableEq

/-- String normalization methods (mod.rs `Normalization`). -/
inductive Normalization where
  | Nfd
  | Nfkd
  | Nfc
  | Nfkc
  | None
deriving DecidableEq

/-- Standards LibreAuth can comply with (mod.rs `PasswordStorageStandard`). -/
inductive PasswordStorageStandard where
  | NoStandard
  | Nist80063b
deriving DecidableEq

/-- The internal version number added to the user-defined scheme version
(mod.rs `INTERNAL_VERSION`). -/
def INTERNAL_VERSION : Nat := 1

/-- The default user scheme version (mod.rs `DEFAULT_USER_VERSION`). -/
def DEFAULT_USER_VERSION : Nat := 0

/-- Modelled from the spec: the Unicode normalization collaborator
(spec section 6, "Unicode normalization functions for the four standard
forms"; the `unicode_normalization` crate is outside the core).  Each
field is one of the four normal forms as a string transformer. -/
structure UnicodeNorm where
  nfd : String → String
  nfkd : String → String
  nfc : String → String
  nfkc : String → String

/-- Modelled from the spec: the pluggable hash-algorithm capability
(spec section 4.2; `argon2.rs` and `pbkdf2.rs` are outside the core).
`report` is the parameter mapping that a capability configured with the
given algorithm-specific parameters exposes through `get_parameters`
(excluding the `norm` entry, which the pipeline's macro adds); `run` is
its `hash` operation after the pipeline has pushed the normalization,
the parameters and the salt into it. -/
structure AlgoModel where
  report : Algorithm → List (String × String) → List (String × String)
  run : Algorithm → Normalization → List (String × String) → List Nat →
        List Nat → List Nat

/-- Modelled from the spec: the identifier string each capability reports
through `get_id` (the record examples in the repository fix them as
`argon2` and `pbkdf2`). -/
def algoId : Algorithm → String
  | Algorithm.Argon2 => "argon2"
  | Algorithm.Pbkdf2 => "pbkdf2"

/-- String stored under the `norm` key for a normalization mode
(the `set_normalization!` macro in mod.rs). -/
def normStr : Normalization → String
  | Normalization.Nfd => "nfd"
  | Normalization.Nfkd => "nfkd"
  | Normalization.Nfc => "nfc"
  | Normalization.Nfkc => "nfkc"
  | Normalization.None => "none"

/-! Default values of the no-standard profile.  Modelled from the spec:
`std_default.rs` is not part of the core sources; the values come from the
defaults table in mod.rs (pmin 8, pmax 128, norm nfkc, len-calc chars)
and its tests (default algorithm argon2).  The default salt length is not
pinned by the spec; it only needs to be a fixed positive constant. -/
namespace std_default

def DEFAULT_NORMALIZATION : Normalization := Normalization.Nfkc

def DEFAULT_PASSWORD_MIN_LEN : Nat := 8

def DEFAULT_PASSWORD_MAX_LEN : Nat := 128

def DEFAULT_ALGORITHM : Algorithm := Algorithm.Argon2

def DEFAULT_SALT_LEN : Nat := 16

def DEFAULT_LENGTH_CALCULATION : LengthCalculationMethod :=
  LengthCalculationMethod.Characters

end std_default

/-! Default values of the NIST SP 800-63B profile.  Modelled from the
spec (section 4.3): `std_nist.rs` is not part of the core sources; the
defaults satisfy the standard's own policy (pbkdf2, chars,
nfkc, min 8, max 128, salt at least 4 bytes). -/
namespace std_nist

def DEFAULT_NORMALIZATION : Normalization := Normalization.Nfkc

def DEFAULT_PASSWORD_MIN_LEN : Nat := 8

def DEFAULT_PASSWORD_MAX_LEN : Nat := 128

def DEFAULT_ALGORITHM : Algorithm := Algorithm.Pbkdf2

def DEFAULT_SALT_LEN : Nat := 16

def DEFAULT_LENGTH_CALCULATION : LengthCalculationMethod :=
  LengthCalculationMethod.Characters

/-- Modelled from the spec: the minimum iteration count the standard
accepts (a fixed threshold; the repository's test rejects 8000). -/
def MIN_PBKDF2_ITER : Nat := 10000

end std_nist

/-- The finalized hashing policy (mod.rs `Hasher`). -/
structure Hasher where
  normalization : Normalization
  min_len : Nat
  max_len : Nat
  algorithm : Algorithm
  parameters : List (String × String)
  ref_salt : Option (List Nat)
  ref_hash : Option (List Nat)
  salt_len : Nat
  length_calculation : LengthCalculationMethod
  version : Nat
deriving DecidableEq

/-- The transient raw-hash / formatted-record pair (mod.rs `HashedDuo`). -/
structure HashedDuo where
  raw : List Nat
  formated : String
deriving DecidableEq

/-- The policy builder (mod.rs `HashBuilder`). -/
structure HashBuilder where
  standard : PasswordStorageStandard
  normalization : Normalization
  min_len : Nat
  max_len : Nat
  algorithm : Algorithm
  parameters : List (String × String)
  ref_salt : Option (List Nat)
  ref_hash : Option (List Nat)
  salt_len : Nat
  length_calculation : LengthCalculationMethod
  version : Nat
deriving DecidableEq

/-- Look up a parameter value (`HashMap::get`). -/
def lookupParam : List (String × String) → String → Option String
  | [], _ => none
  | (k', v') :: t, k => if k' = k then some v' else lookupParam t k

/-- Remove a parameter, returning the removed value and the remaining
mapping (`HashMap::remove` plus the shrunk map). -/
def removeParam : List (String × String) → String →
    Option String × List (String × String)
  | [], _ => (none, [])
  | (k', v') :: t, k =>
      if k' = k then (some v', t)
      else
        match removeParam t k with
        | (r, t') => (r, (k', v') :: t')

/-- Modelled from the spec: `std_nist::is_valid` (spec section 4.3), the
pure check of a proposed configuration against NIST SP 800-63B: minimum
length at least 8, maximum length at least 64, length counted in
characters, normalization not NFC/NFD, the pbkdf2 algorithm, salt length
at least 4 bytes and, when an iteration count is configured, at least the
defined minimum. -/
def std_nist.check (b : HashBuilder) : Bool :=
  8 ≤ b.min_len &&
  64 ≤ b.max_len &&
  b.length_calculation = LengthCalculationMethod.Characters &&
  (b.normalization = Normalization.None ||
   b.normalization = Normalization.Nfkc ||
   b.normalization = Normalization.Nfkd) &&
  b.algorithm = Algorithm.Pbkdf2 &&
  4 ≤ b.salt_len &&
  (match lookupParam b.parameters "iter" with
   | some v => match parseUsize v with
               | some n => std_nist.MIN_PBKDF2_ITER ≤ n
               | none => false
   | none => true)

/-- Check the password length against the policy bounds
(mod.rs `Hasher::check_password`). -/
def Hasher.check_password (h : Hasher) (password : String) : Except ErrorCode Unit :=
  let pass_len :=
    match h.length_calculation with
    | LengthCalculationMethod.Bytes => (utf8Bytes password).length
    | LengthCalculationMethod.Characters => password.data.length
  if pass_len < h.min_len then Except.error ErrorCode.PasswordTooShort
  else if pass_len > h.max_len then Except.error ErrorCode.PasswordTooLong
  else Except.ok ()

/-- Normalize the password per the policy
(mod.rs `Hasher::normalize_password`). -/
def Hasher.normalize_password (h : Hasher) (U : UnicodeNorm) (password : String) : String :=
  match h.normalization with
  | Normalization.Nfd => U.nfd password
  | Normalization.Nfkd => U.nfkd password
  | Normalization.Nfc => U.nfc password
  | Normalization.Nfkc => U.nfkc password
  | Normalization.None => password

/-- Normalize, length-check, run the algorithm capability with the
reference salt (or the freshly generated one), assemble the record and
serialize it (mod.rs `Hasher::do_hash`).  `freshSalt` stands for the
`salt_len` random bytes the capability generates when no reference salt
is set. -/
def Hasher.do_hash (h : Hasher) (U : UnicodeNorm) (A : AlgoModel)
    (freshSalt : List Nat) (password : String) : Except ErrorCode HashedDuo :=
  let norm_pass := h.normalize_password U password
  match h.check_password norm_pass with
  | Except.error e => Except.error e
  | Except.ok _ =>
      let saltUsed :=
        match h.ref_salt with
        | some s => s
        | none => freshSalt
      let hash := A.run h.algorithm h.normalization h.parameters saltUsed
        (utf8Bytes norm_pass)
      let lc :=
        match h.length_calculation with
        | LengthCalculationMethod.Bytes => "bytes"
        | LengthCalculationMethod.Characters => "chars"
      let params0 := insertParam (A.report h.algorithm h.parameters) "norm"
        (normStr h.normalization)
      let params1 := insertParam params0 "len-calc" lc
      let params2 := insertParam params1 "pmin" (natToStr h.min_len)
      let params3 := insertParam params2 "pmax" (natToStr h.max_len)
      let params4 := insertParam params3 "ver" (natToStr h.version)
      let phc : PHCData :=
        { id := algoId h.algorithm
          parameters := params4
          salt := some saltUsed
          hash := some hash }
      match phc.to_string with
      | some fmtd => Except.ok { raw := hash, formated := fmtd }
      | none => Except.error ErrorCode.InvalidPasswordFormat

/-- Hash a password into a storage record (mod.rs `Hasher::hash`). -/
def Hasher.hash (h : Hasher) (U : UnicodeNorm) (A : AlgoModel)
    (freshSalt : List Nat) (password : String) : Except ErrorCode String :=
  match h.do_hash U A freshSalt password with
  | Except.ok hash_duo => Except.ok hash_duo.formated
  | Except.error e => Except.error e

/-- Check a password against the stored reference hash
(mod.rs `Hasher::is_valid`).  `macInit` stands for `Hmac::<Sha512>::new_varkey`
(an HMAC instance as a keyed function, or a setup failure), `macKey` for
the fresh random key generated for the call, `freshSalt` for the random
salt the re-derivation would use if no reference salt were present.
Every internal failure yields `false`. -/
def Hasher.is_valid (h : Hasher) (U : UnicodeNorm) (A : AlgoModel)
    (macInit : List Nat → Option (List Nat → List Nat))
    (freshSalt macKey : List Nat) (password : String) : Bool :=
  match h.ref_hash with
  | none => false
  | some rh =>
      match h.do_hash U A freshSalt password with
      | Except.error _ => false
      | Except.ok hash_duo =>
          match macInit macKey with
          | none => false
          | some ref_hmac =>
              match macInit macKey with
              | none => false
              | some pass_hmac =>
                  decide (ref_hmac rh = pass_hmac hash_duo.raw)

/-- Version-gating signal (mod.rs `Hasher::needs_update`). -/
def Hasher.needs_update (h : Hasher) (current_version : Option Nat) : Bool :=
  match current_version with
  | some nb => decide (h.version < nb + INTERNAL_VERSION)
  | none => decide (h.version < DEFAULT_USER_VERSION + INTERNAL_VERSION)

/-- Create a builder with the default parameters of a standard
(mod.rs `HashBuilder::new_std`). -/
def HashBuilder.new_std (std : PasswordStorageStandard) : HashBuilder :=
  match std with
  | PasswordStorageStandard.NoStandard =>
      { standard := PasswordStorageStandard.NoStandard
        normalization := std_default.DEFAULT_NORMALIZATION
        min_len := std_default.DEFAULT_PASSWORD_MIN_LEN
        max_len := std_default.DEFAULT_PASSWORD_MAX_LEN
        algorithm := std_default.DEFAULT_ALGORITHM
        parameters := []
        ref_salt := none
        ref_hash := none
        salt_len := std_default.DEFAULT_SALT_LEN
        length_calculation := std_default.DEFAULT_LENGTH_CALCULATION
        version := DEFAULT_USER_VERSION + INTERNAL_VERSION }
  | PasswordStorageStandard.Nist80063b =>
      { standard := PasswordStorageStandard.Nist80063b
        normalization := std_nist.DEFAULT_NORMALIZATION
        min_len := std_nist.DEFAULT_PASSWORD_MIN_LEN
        max_len := std_nist.DEFAULT_PASSWORD_MAX_LEN
        algorithm := std_nist.DEFAULT_ALGORITHM
        parameters := []
        ref_salt := none
        ref_hash := none
        salt_len := std_nist.DEFAULT_SALT_LEN
        length_calculation := std_nist.DEFAULT_LENGTH_CALCULATION
        version := DEFAULT_USER_VERSION + INTERNAL_VERSION }

/-- Create a builder with default parameters (mod.rs `HashBuilder::new`). -/
def HashBuilder.new : HashBuilder :=
  HashBuilder.new_std PasswordStorageStandard.NoStandard

/-- Freeze the builder fields into a `Hasher` (the `Ok(Hasher { .. })`
construction inside mod.rs `HashBuilder::finalize`). -/
def HashBuilder.toHasher (b : HashBuilder) : Hasher :=
  { normalization := b.normalization
    min_len := b.min_len
    max_len := b.max_len
    algorithm := b.algorithm
    parameters := b.parameters
    ref_salt := b.ref_salt
    ref_hash := b.ref_hash
    salt_len := b.salt_len
    length_calculation := b.length_calculation
    version := b.version }

/-- Check the compatibility between options and create a `Hasher`
(mod.rs `HashBuilder::finalize`).  Note: on a NIST SP 800-63B violation
the source returns `ErrorCode::InvalidPasswordFormat`, not
`ErrorCode::IncompatibleOption`; the embedding keeps the source's
behaviour. -/
def HashBuilder.finalize (b : HashBuilder) : Except ErrorCode Hasher :=
  match b.standard with
  | PasswordStorageStandard.Nist80063b =>
      if std_nist.check b then Except.ok b.toHasher
      else Except.error ErrorCode.InvalidPasswordFormat
  | PasswordStorageStandard.NoStandard => Except.ok b.toHasher

/-- Set the normalization (mod.rs `HashBuilder::normalization`). -/
def HashBuilder.setNormalization (b : HashBuilder) (n : Normalization) : HashBuilder :=
  { b with normalization := n }

/-- Set the algorithm, discarding the parameters
(mod.rs `HashBuilder::algorithm`). -/
def HashBuilder.setAlgorithm (b : HashBuilder) (algorithm : Algorithm) : HashBuilder :=
  { b with algorithm := algorithm, parameters := [] }

/-- Set the length calculation method
(mod.rs `HashBuilder::length_calculation`). -/
def HashBuilder.setLengthCalculation (b : HashBuilder)
    (method : LengthCalculationMethod) : HashBuilder :=
  { b with length_calculation := method }

/-- Set the salt length (mod.rs `HashBuilder::salt_len`). -/
def HashBuilder.setSaltLen (b : HashBuilder) (len : Nat) : HashBuilder :=
  { b with salt_len := len }

/-- Set the password minimal length (mod.rs `HashBuilder::min_len`). -/
def HashBuilder.setMinLen (b : HashBuilder) (len : Nat) : HashBuilder :=
  { b with min_len := len }

/-- Set the password maximal length (mod.rs `HashBuilder::max_len`). -/
def HashBuilder.setMaxLen (b : HashBuilder) (len : Nat) : HashBuilder :=
  { b with max_len := len }

/-- Add an algorithm parameter (mod.rs `HashBuilder::add_param`). -/
def HashBuilder.addParam (b : HashBuilder) (key value : String) : HashBuilder :=
  { b with parameters := insertParam b.parameters key value }

/-- Set the hashing scheme version number (mod.rs `HashBuilder::version`):
the stored version is the given one plus `INTERNAL_VERSION`. -/
def HashBuilder.setVersion (b : HashBuilder) (version : Nat) : HashBuilder :=
  { b with version := version + INTERNAL_VERSION }

/-- Read the `norm` bookkeeping parameter (the match on
`phc.parameters.remove("norm")` in mod.rs `HashBuilder::from_phc`). -/
def parseNormParam : Option String → Except ErrorCode Normalization
  | some v =>
      match v with
      | "nfd" => Except.ok Normalization.Nfd
      | "nfkd" => Except.ok Normalization.Nfkd
      | "nfc" => Except.ok Normalization.Nfc
      | "nfkc" => Except.ok Normalization.Nfkc
      | "none" => Except.ok Normalization.None
      | _ => Except.error ErrorCode.InvalidPasswordFormat
  | none => Except.ok Normalization.Nfkc

/-- Read an unsigned bookkeeping parameter with a default (the matches on
`ver` / `pmin` / `pmax` in mod.rs `HashBuilder::from_phc`). -/
def parseNatParam (dflt : Nat) : Option String → Except ErrorCode Nat
  | some v =>
      match parseUsize v with
      | some l => Except.ok l
      | none => Except.error ErrorCode.InvalidPasswordFormat
  | none => Except.ok dflt

/-- Read the `len-calc` bookkeeping parameter (the match in
mod.rs `HashBuilder::from_phc`). -/
def parseLcParam : Option String → Except ErrorCode LengthCalculationMethod
  | some v =>
      match v with
      | "bytes" => Except.ok LengthCalculationMethod.Bytes
      | "chars" => Except.ok LengthCalculationMethod.Characters
      | _ => Except.error ErrorCode.InvalidPasswordFormat
  | none => Except.ok LengthCalculationMethod.Characters

/-- Map a record identifier to an algorithm (the match on `phc.id` in
mod.rs `HashBuilder::from_phc`). -/
def parseAlgoId (id : String) : Except ErrorCode Algorithm
  :=
  match id with
  | "argon2" => Except.ok Algorithm.Argon2
  | "pbkdf2" => Except.ok Algorithm.Pbkdf2
  | _ => Except.error ErrorCode.InvalidPasswordFormat

/-- Create a `Hasher` from a PHC formatted string
(mod.rs `HashBuilder::from_phc`): parse the record, pop the bookkeeping
parameters `norm`, `ver`, `pmin`, `pmax`, `len-calc` with their defaults,
map the identifier to an algorithm, take over the salt and hash as the
references, and run `finalize` with no standard selected. -/
def HashBuilder.from_phc (data : String) : Except ErrorCode Hasher :=
  match PHCData.from_bytes (utf8Bytes data) with
  | none => Except.error ErrorCode.InvalidPasswordFormat
  | some phc =>
      match removeParam phc.parameters "norm" with
      | (nv, p1) =>
          match parseNormParam nv with
          | Except.error e => Except.error e
          | Except.ok norm =>
              match removeParam p1 "ver" with
              | (vv, p2) =>
                  match parseNatParam (DEFAULT_USER_VERSION + INTERNAL_VERSION) vv with
                  | Except.error e => Except.error e
                  | Except.ok version =>
                      match removeParam p2 "pmin" with
                      | (mnv, p3) =>
                          match parseNatParam std_default.DEFAULT_PASSWORD_MIN_LEN mnv with
                          | Except.error e => Except.error e
                          | Except.ok min_l =>
                              match removeParam p3 "pmax" with
                              | (mxv, p4) =>
                                  match parseNatParam std_default.DEFAULT_PASSWORD_MAX_LEN mxv with
                                  | Except.error e => Except.error e
                                  | Except.ok max_l =>
                                      match removeParam p4 "len-calc" with
                                      | (lcv, p5) =>
                                          match parseLcParam lcv with
                                          | Except.error e => Except.error e
                                          | Except.ok lc =>
                                              match parseAlgoId phc.id with
                                              | Except.error e => Except.error e
                                              | Except.ok algo =>
                                                  let hash_builder : HashBuilder :=
                                                    { standard := PasswordStorageStandard.NoStandard
                                                      normalization := norm
                                                      min_len := min_l
                                                      max_len := max_l
                                                      algorithm := algo
                                                      parameters := p5
                                                      ref_hash := phc.hash
                                                      salt_len :=
                                                        match phc.salt with
                                                        | some s => s.length
                                                        | none => std_default.DEFAULT_SALT_LEN
                                                      ref_salt := phc.salt
                                                      length_calculation := lc
                                                      version := version }
                                                  hash_builder.finalize

/-! ## Predicates and concrete model instances used by the statements -/

/-- Every character of the string lies in the byte class `p`. -/
def strAll (p : Nat → Bool) (s : String) : Bool :=
  s.data.all (fun c => p c.toNat)

/-- A well-formed parameter name: non-empty, name-class characters. -/
def wfName (s : String) : Bool :=
  !(s = "") && strAll is_param_name_char s

/-- A well-formed parameter value: non-empty, value-class characters. -/
def wfValue (s : String) : Bool :=
  !(s = "") && strAll is_param_value_char s

/-- First components of an association list. -/
def keysOf (l : List (String × String)) : List String := l.map Prod.fst

/-- Well-formedness of a parsed or assembled record: the invariants
every `PHCData` in the image of `PHCData.from_bytes` enjoys, and which
make `PHCData.to_string` produce a parseable string. -/
structure WFphc (d : PHCData) : Prop where
  id_ne : d.id ≠ ""
  id_wf : strAll is_id_char d.id = true
  params_wf : ∀ kv ∈ d.parameters, wfName kv.1 = true ∧ wfValue kv.2 = true
  keys_nodup : (keysOf d.parameters).Nodup
  salt_wf : ∀ v, d.salt = some v → v ≠ [] ∧ ∀ b ∈ v, b < 256
  hash_wf : ∀ v, d.hash = some v → v ≠ [] ∧ ∀ b ∈ v, b < 256

/-- The canonical form a record reaches after one serialize/parse cycle:
a hash not backed by a salt is dropped (the serializer never emits it). -/
def canonPHC (d : PHCData) : PHCData :=
  match d.salt with
  | some _ => d
  | none => { d with hash := none }

/-- Every `=` byte in the list is immediately followed by a
parameter-value byte; in particular no `=` is last.  The byte strings
accepted by `get_phc` all satisfy this, which is what rejects padded
base64 segments. -/
def goodEq : List Nat → Bool
  | [] => true
  | a :: t =>
      if a = 61 then
        match t with
        | [] => false
        | b :: _ => is_param_value_char b && goodEq t
      else goodEq t

/-- The bookkeeping parameter names owned by the pipeline. -/
def bookkeepingKeys : List String := ["norm", "len-calc", "pmin", "pmax", "ver"]

/-- Spec-faithful assumptions on a hash-algorithm capability model:
the reported parameter mapping is grammar-well-formed, free of
bookkeeping names and duplicate keys; a capability configured with the
reported mapping behaves like one configured with the original mapping
(the reported parameters fully describe the computation); and the hash
output is a non-empty byte string. -/
structure AlgoModelWF (A : AlgoModel) : Prop where
  report_wf : ∀ a ps, ∀ kv ∈ A.report a ps, wfName kv.1 = true ∧ wfValue kv.2 = true
  report_keys : ∀ a ps, ∀ kv ∈ A.report a ps, kv.1 ∉ bookkeepingKeys
  report_nodup : ∀ a ps, (keysOf (A.report a ps)).Nodup
  report_run : ∀ a n ps s x, A.run a n (A.report a ps) s x = A.run a n ps s x
  run_ne : ∀ a n ps s x, A.run a n ps s x ≠ []
  run_bytes : ∀ a n ps s x, ∀ b ∈ A.run a n ps s x, b < 256

/-- The identity instance of the normalization collaborator (adequate for
ASCII passwords, on which all four normal forms are the identity). -/
def idNorm : UnicodeNorm := ⟨id, id, id, id⟩

/-- A small concrete capability model used to instantiate theorems: it
reports no parameters and hashes by prefixing a marker byte to the salt
and the (byte-truncated) input. -/
def toyAlgo : AlgoModel :=
  { report := fun _ _ => []
    run := fun _ _ _ s x => 42 :: (s ++ x).map (fun b => b % 256) }

/-- A MAC model whose instances prepend the key (injective in the
message for every key). -/
def concatMac : List Nat → Option (List Nat → List Nat) :=
  fun k => some (fun m => k ++ m)

/-- A MAC model whose setup always fails. -/
def noMac : List Nat → Option (List Nat → List Nat) :=
  fun _ => none

/-! ## Basic lemmas: characters, strings, byte classes -/

theorem char_toNat_ofNat (n : Nat) (h : n < 55296) : (Char.ofNat n).toNat = n := by
  have hv : n.isValidChar := Or.inl h
  simp [Char.ofNat, hv, Char.ofNatAux, Char.toNat, UInt32.toNat, BitVec.toNat_ofNatLt]

theorem is_id_char_lt (b : Nat) (h : is_id_char b = true) : b < 128 := by
  simp only [is_id_char, Bool.or_eq_true, Bool.and_eq_true, decide_eq_true_eq,
    beq_iff_eq] at h
  omega

theorem is_name_char_lt (b : Nat) (h : is_param_name_char b = true) : b < 128 := by
  simp only [is_param_name_char, Bool.or_eq_true, Bool.and_eq_true, decide_eq_true_eq,
    beq_iff_eq] at h
  omega

theorem is_value_char_lt (b : Nat) (h : is_param_value_char b = true) : b < 128 := by
  simp only [is_param_value_char, Bool.or_eq_true, Bool.and_eq_true, decide_eq_true_eq,
    beq_iff_eq] at h
  omega

theorem is_b64_lt (b : Nat) (h : is_b64 b = true) : b < 128 := by
  simp only [is_b64, Bool.or_eq_true, Bool.and_eq_true, decide_eq_true_eq,
    beq_iff_eq] at h
  omega

theorem is_id_char_ne (b : Nat) (h : is_id_char b = true) :
    b ≠ 36 ∧ b ≠ 61 ∧ b ≠ 44 := by
  simp only [is_id_char, Bool.or_eq_true, Bool.and_eq_true, decide_eq_true_eq,
    beq_iff_eq] at h
  omega

theorem is_name_char_ne (b : Nat) (h : is_param_name_char b = true) :
    b ≠ 36 ∧ b ≠ 61 ∧ b ≠ 44 := by
  simp only [is_param_name_char, Bool.or_eq_true, Bool.and_eq_true, decide_eq_true_eq,
    beq_iff_eq] at h
  omega

theorem is_value_char_ne (b : Nat) (h : is_param_value_char b = true) :
    b ≠ 36 ∧ b ≠ 61 ∧ b ≠ 44 := by
  simp only [is_param_value_char, Bool.or_eq_true, Bool.and_eq_true, decide_eq_true_eq,
    beq_iff_eq] at h
  omega

theorem is_b64_ne (b : Nat) (h : is_b64 b = true) :
    b ≠ 36 ∧ b ≠ 61 ∧ b ≠ 44 := by
  simp only [is_b64, Bool.or_eq_true, Bool.and_eq_true, decide_eq_true_eq,
    beq_iff_eq] at h
  omega

theorem utf8EncodeChar_ascii (c : Nat) (h : c < 128) : utf8EncodeChar c = [c] := by
  simp [utf8EncodeChar, h]

theorem listUtf8_append (l1 l2 : List Char) :
    listUtf8 (l1 ++ l2) = listUtf8 l1 ++ listUtf8 l2 := by
  induction l1 with
  | nil => rfl
  | cons c t ih => simp [listUtf8, ih]

theorem utf8Bytes_append (s t : String) :
    utf8Bytes (s ++ t) = utf8Bytes s ++ utf8Bytes t := by
  simp [utf8Bytes, String.data_append, listUtf8_append]

theorem utf8Bytes_bytesToString (l : List Nat) (h : ∀ b ∈ l, b < 128) :
    utf8Bytes (bytesToString l) = l := by
  have : ∀ m : List Nat, (∀ b ∈ m, b < 128) → listUtf8 (m.map Char.ofNat) = m := by
    intro m
    induction m with
    | nil => intro _; rfl
    | cons b t ih =>
        intro hm
        have hb : b < 128 := hm b (List.mem_cons_self b t)
        have hc : (Char.ofNat b).toNat = b := char_toNat_ofNat b (by omega)
        simp only [List.map_cons, listUtf8, hc, utf8EncodeChar_ascii b hb,
          ih (fun x hx => hm x (List.mem_cons_of_mem b hx))]
        rfl
  exact this l h

theorem bytesToString_ne_empty (l : List Nat) (h : l ≠ []) :
    bytesToString l ≠ "" := by
  intro hc
  have : (bytesToString l).data = [] := by rw [hc]
  simp only [bytesToString] at this
  exact h (List.map_eq_nil_iff.mp this)

theorem strAll_bytesToString (p : Nat → Bool) (l : List Nat)
    (hlt : ∀ b ∈ l, b < 128) (hp : ∀ b ∈ l, p b = true) :
    strAll p (bytesToString l) = true := by
  simp only [strAll, bytesToString, List.all_eq_true]
  intro c hc
  obtain ⟨b, hb, rfl⟩ := List.mem_map.mp hc
  show p (Char.ofNat b).toNat = true
  rw [char_toNat_ofNat b (by have := hlt b hb; omega)]
  exact hp b hb

theorem listUtf8_all (p : Nat → Bool) (cs : List Char)
    (h : ∀ c ∈ cs, p c.toNat = true) (hlt : ∀ b, p b = true → b < 128) :
    ∀ b ∈ listUtf8 cs, p b = true := by
  induction cs with
  | nil => intro b hb; cases hb
  | cons c t ih =>
      intro b hb
      have hc : p c.toNat = true := h c (List.mem_cons_self c t)
      have hlt' : c.toNat < 128 := hlt _ hc
      simp only [listUtf8, utf8EncodeChar_ascii c.toNat hlt', List.cons_append,
        List.nil_append, List.mem_cons] at hb
      rcases hb with rfl | hb
      · exact hc
      · exact ih (fun x hx => h x (List.mem_cons_of_mem c hx)) b hb

theorem strAll_utf8Bytes (p : Nat → Bool) (s : String)
    (h : strAll p s = true) (hlt : ∀ b, p b = true → b < 128) :
    ∀ b ∈ utf8Bytes s, p b = true := by
  simp only [strAll, List.all_eq_true] at h
  exact listUtf8_all p s.data h hlt

theorem utf8EncodeChar_ne_nil (c : Nat) : utf8EncodeChar c ≠ [] := by
  unfold utf8EncodeChar
  split
  · simp
  · split
    · simp
    · split <;> simp

theorem utf8Bytes_ne_empty (s : String) (h : s ≠ "") : utf8Bytes s ≠ [] := by
  intro hc
  apply h
  have hd : s.data ≠ [] := fun hn => h (by cases s; simp_all)
  cases hs : s.data with
  | nil => exact absurd hs hd
  | cons c t =>
      exfalso
      simp only [utf8Bytes, hs, listUtf8] at hc
      exact utf8EncodeChar_ne_nil c.toNat (List.append_eq_nil.mp hc).1

/-! ## takeWhile-style lemmas for the combinators -/

theorem takeWhile_all_mem (p : Nat → Bool) (l : List Nat) :
    ∀ b ∈ l.takeWhile p, p b = true :=
  fun _ hb => List.mem_takeWhile_imp hb

theorem takeWhile_append_of (p : Nat → Bool) (xs ys : List Nat)
    (hx : ∀ b ∈ xs, p b = true)
    (hy : ∀ b, ys.head? = some b → p b = false) :
    (xs ++ ys).takeWhile p = xs ∧ (xs ++ ys).dropWhile p = ys := by
  induction xs with
  | nil =>
      simp only [List.nil_append]
      cases ys with
      | nil => simp [List.takeWhile, List.dropWhile]
      | cons y t =>
          have : p y = false := hy y rfl
          simp [List.takeWhile, List.dropWhile, this]
  | cons x xs ih =>
      have hx0 : p x = true := hx x (List.mem_cons_self x xs)
      have := ih (fun b hb => hx b (List.mem_cons_of_mem x hb))
      simp [List.takeWhile, List.dropWhile, hx0, this.1, this.2]

theorem takeW1_sound (p : Nat → Bool) (l c r : List Nat)
    (h : takeW1 p l = some (c, r)) :
    l = c ++ r ∧ c ≠ [] ∧ (∀ b ∈ c, p b = true) := by
  unfold takeW1 at h
  cases l with
  | nil => cases h
  | cons b t =>
      by_cases hb : p b = true
      · simp only [hb, if_pos] at h
        obtain ⟨hc, hr⟩ : (b :: t).takeWhile p = c ∧ (b :: t).dropWhile p = r := by
          cases h; exact ⟨rfl, rfl⟩
        refine ⟨?_, ?_, ?_⟩
        · rw [← hc, ← hr, List.takeWhile_append_dropWhile]
        · rw [← hc]; simp [List.takeWhile, hb]
        · rw [← hc]; exact takeWhile_all_mem p (b :: t)
      · simp only [Bool.not_eq_true] at hb
        simp [hb] at h

theorem takeW1_append (p : Nat → Bool) (xs ys : List Nat)
    (hne : xs ≠ []) (hx : ∀ b ∈ xs, p b = true)
    (hy : ∀ b, ys.head? = some b → p b = false) :
    takeW1 p (xs ++ ys) = some (xs, ys) := by
  obtain ⟨htk, hdr⟩ := takeWhile_append_of p xs ys hx hy
  cases xs with
  | nil => exact absurd rfl hne
  | cons x t =>
      have hx0 : p x = true := hx x (List.mem_cons_self x t)
      have hform : takeW1 p ((x :: t) ++ ys) =
          if p x = true then
            some (((x :: t) ++ ys).takeWhile p, ((x :: t) ++ ys).dropWhile p)
          else none := by
        simp [takeW1]
      rw [hform, if_pos hx0, htk, hdr]

theorem takeW_sound (p : Nat → Bool) (l c r : List Nat)
    (h : takeW p l = (c, r)) :
    l = c ++ r ∧ (∀ b ∈ c, p b = true) := by
  unfold takeW at h
  obtain ⟨hc, hr⟩ : l.takeWhile p = c ∧ l.dropWhile p = r := by
    cases h; exact ⟨rfl, rfl⟩
  refine ⟨?_, ?_⟩
  · rw [← hc, ← hr, List.takeWhile_append_dropWhile]
  · rw [← hc]; exact takeWhile_all_mem p l

theorem takeW_append (p : Nat → Bool) (xs ys : List Nat)
    (hx : ∀ b ∈ xs, p b = true)
    (hy : ∀ b, ys.head? = some b → p b = false) :
    takeW p (xs ++ ys) = (xs, ys) := by
  obtain ⟨htk, hdr⟩ := takeWhile_append_of p xs ys hx hy
  simp [takeW, htk, hdr]

/-! ## Decimal lemmas -/

theorem natToDigitsAux_fuel (n : Nat) :
    ∀ f1 f2, n < f1 → n < f2 → natToDigitsAux f1 n = natToDigitsAux f2 n := by
  induction n using Nat.strong_induction_on with
  | _ n ih =>
      intro f1 f2 h1 h2
      cases f1 with
      | zero => omega
      | succ g1 =>
          cases f2 with
          | zero => omega
          | succ g2 =>
              by_cases h : n < 10
              · simp [natToDigitsAux, h]
              · simp only [natToDigitsAux, if_neg h]
                rw [ih (n / 10) (Nat.div_lt_self (by omega) (by omega)) g1 g2
                  (by omega) (by omega)]

theorem natToDigits_eq (n : Nat) :
    natToDigits n =
      if n < 10 then [48 + n] else natToDigits (n / 10) ++ [48 + n % 10] := by
  show natToDigitsAux (n + 1) n = _
  by_cases h : n < 10
  · simp [natToDigitsAux, h]
  · simp only [natToDigitsAux, if_neg h]
    rw [natToDigitsAux_fuel (n / 10) n (n / 10 + 1)
      (Nat.div_lt_self (by omega) (by omega)) (by omega)]
    rfl

theorem natToDigits_digits (n : Nat) : ∀ b ∈ natToDigits n, 48 ≤ b ∧ b ≤ 57 := by
  induction n using Nat.strong_induction_on with
  | _ n ih =>
      rw [natToDigits_eq]
      by_cases h : n < 10
      · rw [if_pos h]
        intro b hb
        simp only [List.mem_singleton] at hb
        omega
      · rw [if_neg h]
        intro b hb
        rcases List.mem_append.mp hb with hb | hb
        · exact ih (n / 10) (Nat.div_lt_self (by omega) (by omega)) b hb
        · simp only [List.mem_singleton] at hb
          have := Nat.mod_lt n (show 0 < 10 by omega)
          omega

theorem natToDigits_ne_nil (n : Nat) : natToDigits n ≠ [] := by
  rw [natToDigits_eq]
  by_cases h : n < 10 <;> simp [h]

theorem digitsToNatAux_append (acc : Nat) (xs ys : List Nat) :
    digitsToNatAux acc (xs ++ ys) =
      match digitsToNatAux acc xs with
      | some m => digitsToNatAux m ys
      | none => none := by
  induction xs generalizing acc with
  | nil => simp [digitsToNatAux]
  | cons d t ih =>
      by_cases hd : 48 ≤ d ∧ d ≤ 57
      · simp [digitsToNatAux, hd, ih]
      · simp [digitsToNatAux, hd]

theorem digitsToNatAux_natToDigits (n acc : Nat) :
    digitsToNatAux acc (natToDigits n) =
      some (acc * 10 ^ (natToDigits n).length + n) := by
  induction n using Nat.strong_induction_on generalizing acc with
  | _ n ih =>
      by_cases h : n < 10
      · rw [natToDigits_eq, if_pos h]
        have h1 : 48 ≤ 48 + n ∧ 48 + n ≤ 57 := by omega
        simp only [digitsToNatAux, if_pos h1, List.length_singleton]
        congr 1
        omega
      · rw [natToDigits_eq, if_neg h]
        rw [digitsToNatAux_append]
        rw [ih (n / 10) (Nat.div_lt_self (by omega) (by omega)) acc]
        have hm : n % 10 < 10 := Nat.mod_lt n (by omega)
        have h2 : 48 ≤ 48 + n % 10 ∧ 48 + n % 10 ≤ 57 := by omega
        simp only [digitsToNatAux, if_pos h2]
        rw [List.length_append, List.length_singleton]
        congr 1
        have hdm : n / 10 * 10 + n % 10 = n := by
          have := Nat.div_add_mod n 10
          omega
        have h3 : 48 + n % 10 - 48 = n % 10 := by omega
        rw [h3, Nat.pow_succ, Nat.add_mul, Nat.mul_assoc, Nat.add_assoc, hdm]

theorem digitsToNat_natToDigits (n : Nat) :
    digitsToNat (natToDigits n) = some n := by
  have h := digitsToNatAux_natToDigits n 0
  simp only [Nat.zero_mul, Nat.zero_add] at h
  cases hd : natToDigits n with
  | nil => exact absurd hd (natToDigits_ne_nil n)
  | cons b t =>
      rw [hd] at h
      simp only [digitsToNat, h]

theorem utf8Bytes_natToStr (n : Nat) : utf8Bytes (natToStr n) = natToDigits n := by
  unfold natToStr
  exact utf8Bytes_bytesToString _ (fun b hb => by have := natToDigits_digits n b hb; omega)

theorem parseUsize_natToStr (n : Nat) : parseUsize (natToStr n) = some n := by
  unfold parseUsize
  rw [utf8Bytes_natToStr]
  have hd := digitsToNat_natToDigits n
  cases hds : natToDigits n with
  | nil => exact absurd hds (natToDigits_ne_nil n)
  | cons b t =>
      have hb : 48 ≤ b ∧ b ≤ 57 :=
        natToDigits_digits n b (by rw [hds]; exact List.mem_cons_self b t)
      rw [hds] at hd
      split
      · rename_i t' heq
        injection heq with h1 _
        omega
      · exact hd

/-! ## Base64 lemmas -/

theorem b64Sextet_alphabet : ∀ s : Nat, s < 64 → b64Sextet (b64Alphabet s) = some s := by
  decide

theorem alphabet_is_b64 : ∀ s : Nat, s < 64 → is_b64 (b64Alphabet s) = true := by
  decide

theorem alphabet_lt : ∀ s : Nat, s < 64 → b64Alphabet s < 128 := by
  decide

theorem b64Sextet_lt (b s : Nat) (h : b64Sextet b = some s) : s < 64 := by
  unfold b64Sextet at h
  split_ifs at h <;> (injection h with h; omega)

theorem encChunks_lt (v : List Nat) (hv : ∀ b ∈ v, b < 256) :
    ∀ s ∈ encChunks v, s < 64 := by
  induction v using encChunks.induct with
  | case1 => intro s hs; cases hs
  | case2 a =>
      intro s hs
      have ha := hv a (by simp)
      simp only [encChunks, List.mem_cons, List.mem_singleton] at hs
      rcases hs with rfl | rfl | h
      · omega
      · have : a % 4 < 4 := Nat.mod_lt a (by omega)
        omega
      · cases h
  | case3 a b =>
      intro s hs
      have ha := hv a (by simp)
      have hb := hv b (by simp)
      simp only [encChunks, List.mem_cons, List.mem_singleton] at hs
      have h4 : a % 4 < 4 := Nat.mod_lt a (by omega)
      have h16 : b % 16 < 16 := Nat.mod_lt b (by omega)
      rcases hs with rfl | rfl | rfl | h
      · omega
      · omega
      · omega
      · cases h
  | case4 a b c rest ih =>
      intro s hs
      have ha := hv a (by simp)
      have hb := hv b (by simp)
      have hc := hv c (by simp)
      have h4 : a % 4 < 4 := Nat.mod_lt a (by omega)
      have h16 : b % 16 < 16 := Nat.mod_lt b (by omega)
      have h64 : c % 64 < 64 := Nat.mod_lt c (by omega)
      simp only [encChunks, List.mem_cons] at hs
      rcases hs with rfl | rfl | rfl | rfl | h
      · omega
      · omega
      · omega
      · omega
      · exact ih (fun x hx => hv x (by simp [hx])) s h

theorem sextets_map_alphabet (ss : List Nat) (h : ∀ s ∈ ss, s < 64) :
    sextets (ss.map b64Alphabet) = some ss := by
  induction ss with
  | nil => rfl
  | cons s t ih =>
      have hs := h s (List.mem_cons_self s t)
      simp only [List.map_cons, sextets, b64Sextet_alphabet s hs,
        ih (fun x hx => h x (List.mem_cons_of_mem s hx))]

theorem decChunks_encChunks (v : List Nat) (hv : ∀ b ∈ v, b < 256) :
    decChunks (encChunks v) = some v := by
  induction v using encChunks.induct with
  | case1 => rfl
  | case2 a =>
      have ha := hv a (by simp)
      simp only [encChunks, decChunks]
      congr 2
      omega
  | case3 a b =>
      have ha := hv a (by simp)
      have hb := hv b (by simp)
      simp only [encChunks, decChunks]
      have h1 : a / 4 * 4 + (a % 4 * 16 + b / 16) / 16 = a := by omega
      have h2 : (a % 4 * 16 + b / 16) % 16 * 16 + b % 16 * 4 / 4 = b := by omega
      rw [h1, h2]
  | case4 a b c rest ih =>
      have ha := hv a (by simp)
      have hb := hv b (by simp)
      have hc := hv c (by simp)
      have hrest := ih (fun x hx => hv x (by simp [hx]))
      cases hr : encChunks rest with
      | nil =>
          rw [hr] at hrest
          simp only [decChunks] at hrest
          have hrv : rest = [] := by
            injection hrest with h; exact h.symm
          subst hrv
          simp only [encChunks, hr, decChunks]
          have h1 : a / 4 * 4 + (a % 4 * 16 + b / 16) / 16 = a := by omega
          have h2 : (a % 4 * 16 + b / 16) % 16 * 16 + (b % 16 * 4 + c / 64) / 4 = b := by omega
          have h3 : (b % 16 * 4 + c / 64) % 4 * 64 + c % 64 = c := by omega
          rw [h1, h2, h3]
      | cons e es =>
          simp only [encChunks, hr, decChunks]
          rw [hr] at hrest
          cases hes : es with
          | nil =>
              rw [hes] at hrest
              simp only [decChunks] at hrest
              cases hrest
          | cons e2 es2 =>
              rw [hes] at hrest
              have h1 : a / 4 * 4 + (a % 4 * 16 + b / 16) / 16 = a := by omega
              have h2 : (a % 4 * 16 + b / 16) % 16 * 16 + (b % 16 * 4 + c / 64) / 4 = b := by
                omega
              have h3 : (b % 16 * 4 + c / 64) % 4 * 64 + c % 64 = c := by omega
              cases hds : decChunks (e :: e2 :: es2) with
              | none => rw [hds] at hrest; cases hrest
              | some bs =>
                  rw [hds] at hrest
                  injection hrest with hrest
                  simp only [hds, h1, h2, h3, hrest]

theorem decodeB64_encodeB64 (v : List Nat) (hv : ∀ b ∈ v, b < 256) :
    decodeB64 (encodeB64 v) = some v := by
  unfold decodeB64 encodeB64
  rw [sextets_map_alphabet _ (encChunks_lt v hv)]
  exact decChunks_encChunks v hv

theorem encodeB64_ne_nil (v : List Nat) (hv : v ≠ []) : encodeB64 v ≠ [] := by
  unfold encodeB64
  intro hc
  have : encChunks v = [] := List.map_eq_nil_iff.mp hc
  cases v with
  | nil => exact hv rfl
  | cons a t =>
      cases t with
      | nil => simp [encChunks] at this
      | cons b t2 =>
          cases t2 with
          | nil => simp [encChunks] at this
          | cons c t3 => simp [encChunks] at this

theorem encodeB64_is_b64 (v : List Nat) (hv : ∀ b ∈ v, b < 256) :
    ∀ b ∈ encodeB64 v, is_b64 b = true := by
  intro b hb
  obtain ⟨s, hs, rfl⟩ := List.mem_map.mp hb
  exact alphabet_is_b64 s (encChunks_lt v hv s hs)

theorem encodeB64_lt (v : List Nat) (hv : ∀ b ∈ v, b < 256) :
    ∀ b ∈ encodeB64 v, b < 128 := by
  intro b hb
  obtain ⟨s, hs, rfl⟩ := List.mem_map.mp hb
  exact alphabet_lt s (encChunks_lt v hv s hs)

theorem from_b64_encodeB64 (v : List Nat) (hne : v ≠ []) (hv : ∀ b ∈ v, b < 256) :
    from_b64 (some (encodeB64 v)) = some v := by
  unfold from_b64
  cases he : encodeB64 v with
  | nil => exact absurd he (encodeB64_ne_nil v hne)
  | cons e es =>
      have := decodeB64_encodeB64 v hv
      rw [he] at this
      simp only [this]

theorem sextets_lt (l ss : List Nat) (h : sextets l = some ss) :
    ∀ s ∈ ss, s < 64 := by
  induction l generalizing ss with
  | nil =>
      simp only [sextets] at h
      injection h with h
      subst h
      intro s hs; cases hs
  | cons b t ih =>
      simp only [sextets] at h
      cases hb : b64Sextet b with
      | none => rw [hb] at h; cases h
      | some s0 =>
          rw [hb] at h
          cases ht : sextets t with
          | none => rw [ht] at h; cases h
          | some ss0 =>
              rw [ht] at h
              injection h with h
              subst h
              intro s hs
              rcases List.mem_cons.mp hs with rfl | hs
              · exact b64Sextet_lt b s hb
              · exact ih ss0 ht s hs

theorem decChunks_wf (ss bs : List Nat) (hlt : ∀ s ∈ ss, s < 64)
    (h : decChunks ss = some bs) :
    (ss ≠ [] → bs ≠ []) ∧ (∀ b ∈ bs, b < 256) := by
  induction ss using decChunks.induct generalizing bs with
  | case1 =>
      simp only [decChunks] at h
      injection h with h
      subst h
      exact ⟨fun hc => absurd rfl hc, fun b hb => by cases hb⟩
  | case2 a => simp only [decChunks] at h; cases h
  | case3 a b =>
      simp only [decChunks] at h
      injection h with h
      subst h
      have ha := hlt a (by simp)
      have hb := hlt b (by simp)
      refine ⟨fun _ => by simp, ?_⟩
      intro x hx
      simp only [List.mem_singleton] at hx
      subst hx
      omega
  | case4 a b c =>
      simp only [decChunks] at h
      injection h with h
      subst h
      have ha := hlt a (by simp)
      have hb := hlt b (by simp)
      have hc := hlt c (by simp)
      refine ⟨fun _ => by simp, ?_⟩
      intro x hx
      simp only [List.mem_cons, List.mem_singleton] at hx
      rcases hx with rfl | rfl | h'
      · omega
      · omega
      · cases h'
  | case5 a b c d rest bs0 hr ih =>
      simp only [decChunks, hr] at h
      injection h with h
      subst h
      have ha := hlt a (by simp)
      have hb := hlt b (by simp)
      have hc := hlt c (by simp)
      have hd := hlt d (by simp)
      obtain ⟨_, hbs0⟩ := ih bs0 (fun s hs => hlt s (by simp [hs])) hr
      refine ⟨fun _ => by simp, ?_⟩
      intro x hx
      simp only [List.mem_cons] at hx
      rcases hx with rfl | rfl | rfl | h'
      · omega
      · omega
      · omega
      · exact hbs0 x h'
  | case6 a b c d rest hr ih =>
      simp only [decChunks, hr] at h
      cases h

theorem from_b64_wf (o : Option (List Nat)) (v : List Nat)
    (h : from_b64 o = some v) :
    o.isSome = true ∧ v ≠ [] ∧ ∀ b ∈ v, b < 256 := by
  cases o with
  | none => cases h
  | some raw =>
      refine ⟨rfl, ?_⟩
      cases raw with
      | nil => cases h
      | cons r rs =>
          have hred : from_b64 (some (r :: rs)) =
              match decodeB64 (r :: rs) with
              | some x => some x
              | none => none := rfl
          rw [hred] at h
          cases hdec : decodeB64 (r :: rs) with
          | none => rw [hdec] at h; cases h
          | some dv =>
              rw [hdec] at h
              injection h with h
              subst h
              unfold decodeB64 at hdec
              cases hsx : sextets (r :: rs) with
              | none => rw [hsx] at hdec; cases hdec
              | some ss =>
                  rw [hsx] at hdec
                  have hlt := sextets_lt _ _ hsx
                  obtain ⟨hne, hbs⟩ := decChunks_wf ss _ hlt hdec
                  refine ⟨?_, hbs⟩
                  apply hne
                  intro hss
                  subst hss
                  simp only [sextets] at hsx
                  cases hb : b64Sextet r with
                  | none => rw [hb] at hsx; cases hsx
                  | some s0 =>
                      rw [hb] at hsx
                      cases ht : sextets rs with
                      | none => rw [ht] at hsx; cases hsx
                      | some ss0 => rw [ht] at hsx; cases hsx

/-! ## Lemmas about `goodEq` -/

theorem goodEq_cons_ne (a : Nat) (t : List Nat) (ha : a ≠ 61) :
    goodEq (a :: t) = goodEq t := by
  simp [goodEq, ha]

theorem goodEq_cons_eq (y : List Nat) :
    goodEq (61 :: y) = true ↔
      ∃ b t, y = b :: t ∧ is_param_value_char b = true ∧ goodEq y = true := by
  cases y with
  | nil =>
      constructor
      · intro h; exfalso; simp [goodEq] at h
      · rintro ⟨b, t, h, _, _⟩; cases h
  | cons b t =>
      have hred : goodEq (61 :: b :: t) = (is_param_value_char b && goodEq (b :: t)) := by
        simp [goodEq]
      constructor
      · intro h
        rw [hred, Bool.and_eq_true] at h
        exact ⟨b, t, rfl, h.1, h.2⟩
      · rintro ⟨b2, t2, heq, hb, hg⟩
        injection heq with h1 h2
        subst h1
        subst h2
        rw [hred, Bool.and_eq_true]
        exact ⟨hb, hg⟩

theorem goodEq_of_no_eq (l : List Nat) (h : ∀ b ∈ l, b ≠ 61) : goodEq l = true := by
  induction l with
  | nil => rfl
  | cons a t ih =>
      have ha := h a (List.mem_cons_self a t)
      rw [goodEq_cons_ne a t ha]
      exact ih (fun b hb => h b (List.mem_cons_of_mem a hb))

theorem goodEq_append (l1 l2 : List Nat) (h1 : goodEq l1 = true)
    (h2 : goodEq l2 = true) : goodEq (l1 ++ l2) = true := by
  induction l1 with
  | nil => exact h2
  | cons a t ih =>
      by_cases ha : a = 61
      · subst ha
        obtain ⟨b, t', rfl, hb, hg⟩ := (goodEq_cons_eq t).mp h1
        have : goodEq ((b :: t') ++ l2) = true := ih hg
        rw [List.cons_append]
        apply (goodEq_cons_eq ((b :: t') ++ l2)).mpr
        exact ⟨b, t' ++ l2, by simp, hb, this⟩
      · rw [List.cons_append, goodEq_cons_ne a (t ++ l2) ha]
        rw [goodEq_cons_ne a t ha] at h1
        exact ih h1

theorem goodEq_split (x y : List Nat) (h : goodEq (x ++ 61 :: y) = true) :
    ∃ b t, y = b :: t ∧ is_param_value_char b = true := by
  induction x with
  | nil =>
      simp only [List.nil_append] at h
      obtain ⟨b, t, hy, hb, _⟩ := (goodEq_cons_eq y).mp h
      exact ⟨b, t, hy, hb⟩
  | cons a t ih =>
      by_cases ha : a = 61
      · subst ha
        rw [List.cons_append] at h
        obtain ⟨b, t', heq, _, hg⟩ := (goodEq_cons_eq (t ++ 61 :: y)).mp h
        exact ih hg
      · rw [List.cons_append, goodEq_cons_ne a (t ++ 61 :: y) ha] at h
        exact ih h

/-! ## Soundness of the combinators: consumed prefixes and their shape -/

theorem tagDollar_sound (l r : List Nat) (h : tagDollar l = some r) : l = 36 :: r := by
  cases l with
  | nil => cases h
  | cons a t =>
      unfold tagDollar at h
      split at h
      · next heq => injection h with h; subst h; exact heq
      · cases h

theorem tagEq_sound (l r : List Nat) (h : tagEq l = some r) : l = 61 :: r := by
  cases l with
  | nil => cases h
  | cons a t =>
      unfold tagEq at h
      split at h
      · next heq => injection h with h; subst h; exact heq
      · cases h

theorem get_id_sound (l : List Nat) (s : String) (r : List Nat)
    (h : get_id l = some (s, r)) :
    ∃ c, l = 36 :: (c ++ r) ∧ c ≠ [] ∧ (∀ b ∈ c, is_id_char b = true) ∧
      s = bytesToString c := by
  unfold get_id at h
  cases hd : tagDollar l with
  | none => rw [hd] at h; cases h
  | some r1 =>
      rw [hd] at h
      dsimp only at h
      cases ht : takeW1 is_id_char r1 with
      | none => rw [ht] at h; cases h
      | some p =>
          obtain ⟨idb, rest⟩ := p
          rw [ht] at h
          dsimp only at h
          injection h with h
          obtain ⟨hs, hr⟩ : bytesToString idb = s ∧ rest = r := by
            cases h; exact ⟨rfl, rfl⟩
          obtain ⟨heq, hne, hall⟩ := takeW1_sound _ _ _ _ ht
          subst hr
          exact ⟨idb, by rw [tagDollar_sound l r1 hd, heq], hne, hall, hs.symm⟩

theorem get_phc_part_sound (l : List Nat) (sb r : List Nat)
    (h : get_phc_part l = some (sb, r)) :
    l = 36 :: (sb ++ r) ∧ (∀ b ∈ sb, is_b64 b = true) := by
  unfold get_phc_part at h
  cases hd : tagDollar l with
  | none => rw [hd] at h; cases h
  | some r1 =>
      rw [hd] at h
      dsimp only at h
      injection h with h
      obtain ⟨heq, hall⟩ := takeW_sound is_b64 r1 sb r h
      exact ⟨by rw [tagDollar_sound l r1 hd, heq], hall⟩

theorem get_param_elem_sound (l : List Nat) (k v : String) (r : List Nat)
    (h : get_param_elem l = some ((k, v), r)) :
    ∃ nb vb tail, l = nb ++ 61 :: (vb ++ tail) ∧ (tail = r ∨ tail = 44 :: r) ∧
      nb ≠ [] ∧ (∀ b ∈ nb, is_param_name_char b = true) ∧
      vb ≠ [] ∧ (∀ b ∈ vb, is_param_value_char b = true) ∧
      k = bytesToString nb ∧ v = bytesToString vb := by
  unfold get_param_elem at h
  cases h1 : takeW1 is_param_name_char l with
  | none => rw [h1] at h; cases h
  | some p1 =>
      obtain ⟨nb, r1⟩ := p1
      rw [h1] at h
      dsimp only at h
      cases h2 : tagEq r1 with
      | none => rw [h2] at h; cases h
      | some r2 =>
          rw [h2] at h
          dsimp only at h
          cases h3 : takeW1 is_param_value_char r2 with
          | none => rw [h3] at h; cases h
          | some p3 =>
              obtain ⟨vb, r3⟩ := p3
              rw [h3] at h
              dsimp only at h
              simp only [Option.some.injEq, Prod.mk.injEq] at h
              obtain ⟨⟨hk, hv⟩, hr⟩ := h
              obtain ⟨hl1, hnb, hnall⟩ := takeW1_sound _ _ _ _ h1
              obtain ⟨hl3, hvb, hvall⟩ := takeW1_sound _ _ _ _ h3
              have hr1 : r1 = 61 :: r2 := tagEq_sound r1 r2 h2
              refine ⟨nb, vb, r3, ?_, ?_, hnb, hnall, hvb, hvall, hk.symm, hv.symm⟩
              · rw [hl1, hr1, hl3]
              · cases hr3 : r3 with
                | nil => left; rw [← hr]; simp [hr3]
                | cons a t =>
                    by_cases ha : a = 44
                    · right
                      subst ha
                      rw [← hr]
                      simp [hr3]
                    · left
                      rw [← hr]
                      simp only [hr3]
                      split
                      · next heq => injection heq with hx _; exact absurd hx ha
                      · rfl

theorem get_param_elem_length (l : List Nat) (kv : String × String) (r : List Nat)
    (h : get_param_elem l = some (kv, r)) : r.length < l.length := by
  obtain ⟨k, v⟩ := kv
  obtain ⟨nb, vb, tail, heq, htail, hnb, _, hvb, _, _, _⟩ :=
    get_param_elem_sound l k v r h
  have hn : 1 ≤ nb.length := by
    cases nb with
    | nil => exact absurd rfl hnb
    | cons _ _ => simp
  have hv : 1 ≤ vb.length := by
    cases vb with
    | nil => exact absurd rfl hvb
    | cons _ _ => simp
  have hl : l.length = nb.length + 1 + (vb.length + tail.length) := by
    rw [heq]; simp [List.length_append]; omega
  rcases htail with rfl | rfl
  · omega
  · simp only [List.length_cons] at hl; omega

/-! ## Lemmas about `insertParam`, `removeParam`, `keysOf` -/

theorem mem_keysOf_insertParam (l : List (String × String)) (k v x : String)
    (h : x ∈ keysOf (insertParam l k v)) : x = k ∨ x ∈ keysOf l := by
  induction l with
  | nil =>
      simp only [insertParam, keysOf, List.map_cons, List.map_nil,
        List.mem_singleton] at h
      exact Or.inl h
  | cons kv t ih =>
      obtain ⟨k', v'⟩ := kv
      by_cases hk : k' = k
      · simp only [insertParam, if_pos hk, keysOf, List.map_cons, List.mem_cons] at h
        rcases h with rfl | h
        · exact Or.inl rfl
        · exact Or.inr (by simp [keysOf, h])
      · simp only [insertParam, if_neg hk, keysOf, List.map_cons, List.mem_cons] at h
        rcases h with rfl | h
        · exact Or.inr (by simp [keysOf])
        · rcases ih h with h' | h'
          · exact Or.inl h'
          · exact Or.inr (by simp [keysOf] at h' ⊢; exact Or.inr h')

theorem insertParam_nodup (l : List (String × String)) (k v : String)
    (h : (keysOf l).Nodup) : (keysOf (insertParam l k v)).Nodup := by
  induction l with
  | nil => simp [insertParam, keysOf]
  | cons kv t ih =>
      obtain ⟨k', v'⟩ := kv
      simp only [keysOf, List.map_cons, List.nodup_cons] at h
      by_cases hk : k' = k
      · subst hk
        have hins : insertParam ((k', v') :: t) k' v = (k', v) :: t := by
          simp [insertParam]
        rw [hins]
        simp only [keysOf, List.map_cons, List.nodup_cons]
        exact ⟨h.1, h.2⟩
      · simp only [insertParam, if_neg hk, keysOf, List.map_cons, List.nodup_cons]
        refine ⟨?_, ih h.2⟩
        intro hc
        rcases mem_keysOf_insertParam t k v k' hc with h' | h'
        · exact hk h'
        · exact h.1 h'

theorem insertParam_wf (l : List (String × String)) (k v : String)
    (hl : ∀ kv ∈ l, wfName kv.1 = true ∧ wfValue kv.2 = true)
    (hk : wfName k = true) (hv : wfValue v = true) :
    ∀ kv ∈ insertParam l k v, wfName kv.1 = true ∧ wfValue kv.2 = true := by
  induction l with
  | nil =>
      intro kv hkv
      simp only [insertParam, List.mem_singleton] at hkv
      subst hkv
      exact ⟨hk, hv⟩
  | cons kv0 t ih =>
      obtain ⟨k', v'⟩ := kv0
      intro kv hkv
      by_cases hkk : k' = k
      · simp only [insertParam, if_pos hkk, List.mem_cons] at hkv
        rcases hkv with rfl | hkv
        · exact ⟨hk, hv⟩
        · exact hl kv (List.mem_cons_of_mem _ hkv)
      · simp only [insertParam, if_neg hkk, List.mem_cons] at hkv
        rcases hkv with rfl | hkv
        · exact hl (k', v') (List.mem_cons_self _ _)
        · exact ih (fun x hx => hl x (List.mem_cons_of_mem _ hx)) kv hkv

theorem insertParam_notMem (l : List (String × String)) (k v : String)
    (h : k ∉ keysOf l) : insertParam l k v = l ++ [(k, v)] := by
  induction l with
  | nil => rfl
  | cons kv t ih =>
      obtain ⟨k', v'⟩ := kv
      have hk : k' ≠ k := by
        intro hc
        exact h (by simp [keysOf, hc])
      simp only [insertParam, if_neg hk, List.cons_append, List.cons.injEq, true_and]
      exact ih (fun hc => h (by simp [keysOf] at hc ⊢; exact Or.inr hc))

theorem removeParam_notMem (l : List (String × String)) (k : String)
    (h : k ∉ keysOf l) : removeParam l k = (none, l) := by
  induction l with
  | nil => rfl
  | cons kv t ih =>
      obtain ⟨k', v'⟩ := kv
      have hk : k' ≠ k := fun hc => h (by simp [keysOf, hc])
      simp only [removeParam, if_neg hk]
      rw [ih (fun hc => h (by simp [keysOf] at hc ⊢; exact Or.inr hc))]

theorem removeParam_append (xs ys : List (String × String)) (k v : String)
    (h : k ∉ keysOf xs) :
    removeParam (xs ++ (k, v) :: ys) k = (some v, xs ++ ys) := by
  induction xs with
  | nil => simp [removeParam]
  | cons kv t ih =>
      obtain ⟨k', v'⟩ := kv
      have hk : k' ≠ k := fun hc => h (by simp [keysOf, hc])
      simp only [List.cons_append, removeParam, if_neg hk, List.append_eq]
      rw [ih (fun hc => h (by simp [keysOf] at hc ⊢; exact Or.inr hc))]

theorem wfName_bytes (nb : List Nat) (hne : nb ≠ [])
    (hall : ∀ b ∈ nb, is_param_name_char b = true) :
    wfName (bytesToString nb) = true := by
  unfold wfName
  rw [Bool.and_eq_true]
  constructor
  · simp only [Bool.not_eq_true']
    exact decide_eq_false (bytesToString_ne_empty nb hne)
  · exact strAll_bytesToString _ nb
      (fun b hb => is_name_char_lt b (hall b hb)) hall

theorem wfValue_bytes (vb : List Nat) (hne : vb ≠ [])
    (hall : ∀ b ∈ vb, is_param_value_char b = true) :
    wfValue (bytesToString vb) = true := by
  unfold wfValue
  rw [Bool.and_eq_true]
  constructor
  · simp only [Bool.not_eq_true']
    exact decide_eq_false (bytesToString_ne_empty vb hne)
  · exact strAll_bytesToString _ vb
      (fun b hb => is_value_char_lt b (hall b hb)) hall

theorem goodEq_elem_chunk (nb vb rest : List Nat)
    (hnall : ∀ b ∈ nb, is_param_name_char b = true)
    (hvb : vb ≠ []) (hvall : ∀ b ∈ vb, is_param_value_char b = true)
    (hrest : ∀ b ∈ rest, b ≠ 61) :
    goodEq (nb ++ 61 :: (vb ++ rest)) = true := by
  apply goodEq_append
  · exact goodEq_of_no_eq nb (fun b hb => (is_name_char_ne b (hnall b hb)).2.1)
  · apply (goodEq_cons_eq (vb ++ rest)).mpr
    cases vb with
    | nil => exact absurd rfl hvb
    | cons b t =>
        refine ⟨b, t ++ rest, by simp, hvall b (List.mem_cons_self b t), ?_⟩
        apply goodEq_of_no_eq
        intro x hx
        rcases List.mem_append.mp hx with hx | hx
        · exact (is_value_char_ne x (hvall x hx)).2.1
        · exact hrest x hx

theorem getParamsAux_sound (fuel : Nat) :
    ∀ (acc : List (String × String)) (l : List Nat) ps r,
    getParamsAux fuel acc l = (ps, r) →
    ∃ c, l = c ++ r ∧ goodEq c = true ∧
      ((∀ kv ∈ acc, wfName kv.1 = true ∧ wfValue kv.2 = true) →
        ∀ kv ∈ ps, wfName kv.1 = true ∧ wfValue kv.2 = true) ∧
      ((keysOf acc).Nodup → (keysOf ps).Nodup) := by
  induction fuel with
  | zero =>
      intro acc l ps r h
      simp only [getParamsAux] at h
      obtain ⟨h1, h2⟩ : acc = ps ∧ l = r := by cases h; exact ⟨rfl, rfl⟩
      subst h1
      subst h2
      exact ⟨[], rfl, rfl, fun hw => hw, fun hn => hn⟩
  | succ fuel ih =>
      intro acc l ps r h
      simp only [getParamsAux] at h
      cases he : get_param_elem l with
      | none =>
          rw [he] at h
          dsimp only at h
          obtain ⟨h1, h2⟩ : acc = ps ∧ l = r := by cases h; exact ⟨rfl, rfl⟩
          subst h1
          subst h2
          exact ⟨[], rfl, rfl, fun hw => hw, fun hn => hn⟩
      | some p =>
          obtain ⟨⟨k, v⟩, r1⟩ := p
          rw [he] at h
          dsimp only at h
          obtain ⟨c1, hr1, hg1, hwf1, hnd1⟩ := ih _ _ _ _ h
          obtain ⟨nb, vb, tail, heq, htail, hnb, hnall, hvb, hvall, hk, hv⟩ :=
            get_param_elem_sound l k v r1 he
          have hwfk : wfName k = true := by rw [hk]; exact wfName_bytes nb hnb hnall
          have hwfv : wfValue v = true := by rw [hv]; exact wfValue_bytes vb hvb hvall
          have hchunk : ∃ chunk, l = chunk ++ r1 ∧ goodEq chunk = true := by
            rcases htail with rfl | rfl
            · refine ⟨nb ++ 61 :: vb, ?_, ?_⟩
              · rw [heq]; simp
              · have := goodEq_elem_chunk nb vb [] hnall hvb hvall (by intro x hx; cases hx)
                simpa using this
            · refine ⟨nb ++ 61 :: (vb ++ [44]), ?_, ?_⟩
              · rw [heq]; simp
              · exact goodEq_elem_chunk nb vb [44] hnall hvb hvall
                  (by intro x hx; simp only [List.mem_singleton] at hx; omega)
          obtain ⟨chunk, hchunk_eq, hchunk_good⟩ := hchunk
          refine ⟨chunk ++ c1, ?_, goodEq_append _ _ hchunk_good hg1, ?_, ?_⟩
          · rw [hchunk_eq, hr1]; simp
          · intro hacc
            exact hwf1 (insertParam_wf acc k v hacc hwfk hwfv)
          · intro hacc
            exact hnd1 (insertParam_nodup acc k v hacc)

theorem parse_params_sound (l : List Nat) (ps : List (String × String)) (r : List Nat)
    (h : parse_params l = some (ps, r)) :
    (∃ c, l = c ++ r ∧ goodEq c = true) ∧
    (∀ kv ∈ ps, wfName kv.1 = true ∧ wfValue kv.2 = true) ∧
    (keysOf ps).Nodup := by
  unfold parse_params at h
  cases hd : tagDollar l with
  | none => rw [hd] at h; cases h
  | some r1 =>
      rw [hd] at h
      dsimp only at h
      injection h with h
      unfold get_params at h
      obtain ⟨c, hc, hg, hwf, hnd⟩ := getParamsAux_sound r1.length [] r1 ps r h
      refine ⟨⟨36 :: c, ?_, ?_⟩, ?_, ?_⟩
      · rw [tagDollar_sound l r1 hd, hc]; rfl
      · rw [goodEq_cons_ne 36 c (by omega)]; exact hg
      · exact hwf (by intro kv hkv; cases hkv)
      · exact hnd (by simp [keysOf])

theorem get_phc_sound (l : List Nat) (raw : PHCRaw) (r : List Nat)
    (h : get_phc l = some (raw, r)) :
    (∃ c, l = c ++ r ∧ goodEq c = true) ∧
    raw.id ≠ "" ∧ strAll is_id_char raw.id = true ∧
    (∀ ps, raw.params = some ps →
      (∀ kv ∈ ps, wfName kv.1 = true ∧ wfValue kv.2 = true) ∧ (keysOf ps).Nodup) ∧
    (raw.rawSalt.isSome = true → raw.params.isSome = true) ∧
    (raw.rawHash.isSome = true → raw.rawSalt.isSome = true) := by
  unfold get_phc at h
  cases hid : get_id l with
  | none => rw [hid] at h; cases h
  | some p0 =>
      obtain ⟨ids, r1⟩ := p0
      rw [hid] at h
      dsimp only at h
      obtain ⟨idc, hidl, hidne, hidall, hids⟩ := get_id_sound l ids r1 hid
      have hid_good : goodEq (36 :: idc) = true := by
        apply goodEq_of_no_eq
        intro b hb
        rcases List.mem_cons.mp hb with rfl | hb
        · omega
        · exact (is_id_char_ne b (hidall b hb)).2.1
      have hids_ne : ids ≠ "" := by rw [hids]; exact bytesToString_ne_empty idc hidne
      have hids_all : strAll is_id_char ids = true := by
        rw [hids]
        exact strAll_bytesToString _ idc (fun b hb => is_id_char_lt b (hidall b hb)) hidall
      cases hpp : parse_params r1 with
      | none =>
          rw [hpp] at h
          dsimp only at h
          injection h with h
          obtain ⟨hraw, hr⟩ : (⟨ids, none, none, none⟩ : PHCRaw) = raw ∧ r1 = r := by
            cases h; exact ⟨rfl, rfl⟩
          subst hr
          rw [← hraw]
          refine ⟨⟨36 :: idc, by rw [hidl]; simp, hid_good⟩, hids_ne, hids_all, ?_, ?_, ?_⟩
          · intro ps hps; cases hps
          · intro hc; cases hc
          · intro hc; cases hc
      | some p1 =>
          obtain ⟨ps, r2⟩ := p1
          rw [hpp] at h
          dsimp only at h
          obtain ⟨⟨cp, hcp, hcp_good⟩, hps_wf, hps_nd⟩ := parse_params_sound r1 ps r2 hpp
          cases hsp : get_phc_part r2 with
          | none =>
              rw [hsp] at h
              dsimp only at h
              injection h with h
              obtain ⟨hraw, hr⟩ : (⟨ids, some ps, none, none⟩ : PHCRaw) = raw ∧ r2 = r := by
                cases h; exact ⟨rfl, rfl⟩
              subst hr
              rw [← hraw]
              refine ⟨⟨36 :: idc ++ cp, ?_, ?_⟩, hids_ne, hids_all, ?_, ?_, ?_⟩
              · rw [hidl, hcp]; simp
              · exact goodEq_append _ _ hid_good hcp_good
              · intro ps0 hps0
                injection hps0 with h1
                subst h1
                exact ⟨hps_wf, hps_nd⟩
              · intro hc; cases hc
              · intro hc; cases hc
          | some p2 =>
              obtain ⟨sb, r3⟩ := p2
              rw [hsp] at h
              dsimp only at h
              obtain ⟨hsl, hsall⟩ := get_phc_part_sound r2 sb r3 hsp
              have hs_good : goodEq (36 :: sb) = true := by
                apply goodEq_of_no_eq
                intro b hb
                rcases List.mem_cons.mp hb with rfl | hb
                · omega
                · exact (is_b64_ne b (hsall b hb)).2.1
              cases hhp : get_phc_part r3 with
              | none =>
                  rw [hhp] at h
                  dsimp only at h
                  injection h with h
                  obtain ⟨hraw, hr⟩ :
                      (⟨ids, some ps, some sb, none⟩ : PHCRaw) = raw ∧ r3 = r := by
                    cases h; exact ⟨rfl, rfl⟩
                  subst hr
                  rw [← hraw]
                  refine ⟨⟨36 :: idc ++ cp ++ (36 :: sb), ?_, ?_⟩, hids_ne, hids_all,
                    ?_, ?_, ?_⟩
                  · rw [hidl, hcp, hsl]; simp
                  · exact goodEq_append _ _ (goodEq_append _ _ hid_good hcp_good) hs_good
                  · intro ps0 hps0
                    injection hps0 with h1
                    subst h1
                    exact ⟨hps_wf, hps_nd⟩
                  · intro _; rfl
                  · intro hc; cases hc
              | some p3 =>
                  obtain ⟨hb2, r4⟩ := p3
                  rw [hhp] at h
                  dsimp only at h
                  injection h with h
                  obtain ⟨hraw, hr⟩ :
                      (⟨ids, some ps, some sb, some hb2⟩ : PHCRaw) = raw ∧ r4 = r := by
                    cases h; exact ⟨rfl, rfl⟩
                  subst hr
                  rw [← hraw]
                  obtain ⟨hhl, hhall⟩ := get_phc_part_sound r3 hb2 r4 hhp
                  have hh_good : goodEq (36 :: hb2) = true := by
                    apply goodEq_of_no_eq
                    intro b hb
                    rcases List.mem_cons.mp hb with rfl | hb
                    · omega
                    · exact (is_b64_ne b (hhall b hb)).2.1
                  refine ⟨⟨36 :: idc ++ cp ++ (36 :: sb) ++ (36 :: hb2), ?_, ?_⟩,
                    hids_ne, hids_all, ?_, ?_, ?_⟩
                  · rw [hidl, hcp, hsl, hhl]; simp
                  · exact goodEq_append _ _
                      (goodEq_append _ _ (goodEq_append _ _ hid_good hcp_good) hs_good)
                      hh_good
                  · intro ps0 hps0
                    injection hps0 with h1
                    subst h1
                    exact ⟨hps_wf, hps_nd⟩
                  · intro _; rfl
                  · intro _; rfl

theorem from_bytes_raw (l : List Nat) (d : PHCData)
    (h : PHCData.from_bytes l = some d) :
    ∃ raw, get_phc l = some (raw, []) ∧ d = mkPHC raw := by
  unfold PHCData.from_bytes at h
  cases hg : get_phc l with
  | none => rw [hg] at h; cases h
  | some p =>
      obtain ⟨raw, r⟩ := p
      rw [hg] at h
      dsimp only at h
      cases r with
      | nil =>
          injection h with h
          exact ⟨raw, hg ▸ rfl, h.symm⟩
      | cons a t => cases h

theorem from_bytes_goodEq (l : List Nat) (d : PHCData)
    (h : PHCData.from_bytes l = some d) : goodEq l = true := by
  obtain ⟨raw, hg, _⟩ := from_bytes_raw l d h
  obtain ⟨⟨c, hc, hcg⟩, _⟩ := get_phc_sound l raw [] hg
  rw [hc, List.append_nil]
  exact hcg

theorem from_bytes_WF (l : List Nat) (d : PHCData)
    (h : PHCData.from_bytes l = some d) : WFphc d := by
  obtain ⟨raw, hg, hd⟩ := from_bytes_raw l d h
  obtain ⟨_, hid_ne, hid_all, hps, _, _⟩ := get_phc_sound l raw [] hg
  subst hd
  constructor
  · exact hid_ne
  · exact hid_all
  · cases hp : raw.params with
    | none => simp only [mkPHC, hp]; intro kv hkv; cases hkv
    | some ps =>
        simp only [mkPHC, hp]
        exact (hps ps hp).1
  · cases hp : raw.params with
    | none => simp [mkPHC, hp, keysOf]
    | some ps =>
        simp only [mkPHC, hp]
        exact (hps ps hp).2
  · intro v hv
    have := from_b64_wf raw.rawSalt v (by simpa [mkPHC] using hv)
    exact ⟨this.2.1, this.2.2⟩
  · intro v hv
    have := from_b64_wf raw.rawHash v (by simpa [mkPHC] using hv)
    exact ⟨this.2.1, this.2.2⟩

/-! ## Computation lemmas: the parser on serialized fragments -/

theorem bytesToString_utf8Bytes (s : String)
    (h : ∀ c ∈ s.data, c.toNat < 128) : bytesToString (utf8Bytes s) = s := by
  have : ∀ cs : List Char, (∀ c ∈ cs, c.toNat < 128) →
      (listUtf8 cs).map Char.ofNat = cs := by
    intro cs
    induction cs with
    | nil => intro _; rfl
    | cons c t ih =>
        intro hcs
        have hc := hcs c (List.mem_cons_self c t)
        simp only [listUtf8, utf8EncodeChar_ascii c.toNat hc, List.cons_append,
          List.nil_append, List.map_cons, Char.ofNat_toNat,
          ih (fun x hx => hcs x (List.mem_cons_of_mem c hx))]
  show (⟨(utf8Bytes s).map Char.ofNat⟩ : String) = s
  rw [utf8Bytes, this s.data h]

theorem strAll_lt_chars (p : Nat → Bool) (s : String) (h : strAll p s = true)
    (hlt : ∀ b, p b = true → b < 128) : ∀ c ∈ s.data, c.toNat < 128 := by
  simp only [strAll, List.all_eq_true] at h
  exact fun c hc => hlt c.toNat (h c hc)

theorem get_id_append (s : String) (rest : List Nat)
    (hne : s ≠ "") (hall : strAll is_id_char s = true)
    (hrest : ∀ b, rest.head? = some b → is_id_char b = false) :
    get_id (36 :: (utf8Bytes s ++ rest)) = some (s, rest) := by
  unfold get_id
  have htag : tagDollar (36 :: (utf8Bytes s ++ rest)) = some (utf8Bytes s ++ rest) := rfl
  rw [htag]
  dsimp only
  rw [takeW1_append is_id_char (utf8Bytes s) rest (utf8Bytes_ne_empty s hne)
    (strAll_utf8Bytes is_id_char s hall is_id_char_lt) hrest]
  dsimp only
  rw [bytesToString_utf8Bytes s (strAll_lt_chars is_id_char s hall is_id_char_lt)]

theorem get_phc_part_append (sb rest : List Nat)
    (hall : ∀ b ∈ sb, is_b64 b = true)
    (hrest : ∀ b, rest.head? = some b → is_b64 b = false) :
    get_phc_part (36 :: (sb ++ rest)) = some (sb, rest) := by
  unfold get_phc_part
  have htag : tagDollar (36 :: (sb ++ rest)) = some (sb ++ rest) := rfl
  rw [htag]
  dsimp only
  rw [takeW_append is_b64 sb rest hall hrest]

theorem get_param_elem_fail (l : List Nat)
    (h : ∀ b, l.head? = some b → is_param_name_char b = false) :
    get_param_elem l = none := by
  unfold get_param_elem
  cases l with
  | nil => rfl
  | cons a t =>
      have := h a rfl
      simp [takeW1, this]

theorem wfName_spec (k : String) (h : wfName k = true) :
    k ≠ "" ∧ strAll is_param_name_char k = true := by
  unfold wfName at h
  rw [Bool.and_eq_true] at h
  refine ⟨?_, h.2⟩
  have := h.1
  simp only [Bool.not_eq_true', decide_eq_false_iff_not] at this
  exact this

theorem wfValue_spec (v : String) (h : wfValue v = true) :
    v ≠ "" ∧ strAll is_param_value_char v = true := by
  unfold wfValue at h
  rw [Bool.and_eq_true] at h
  refine ⟨?_, h.2⟩
  have := h.1
  simp only [Bool.not_eq_true', decide_eq_false_iff_not] at this
  exact this

theorem get_param_elem_nocomma (k v : String) (rest : List Nat)
    (hk : wfName k = true) (hv : wfValue v = true)
    (hrest : ∀ b, rest.head? = some b → is_param_value_char b = false ∧ b ≠ 44) :
    get_param_elem (utf8Bytes k ++ 61 :: (utf8Bytes v ++ rest)) =
      some ((k, v), rest) := by
  unfold get_param_elem
  obtain ⟨hk_ne, hk2⟩ := wfName_spec k hk
  obtain ⟨hv_ne, hv2⟩ := wfValue_spec v hv
  rw [takeW1_append is_param_name_char (utf8Bytes k) (61 :: (utf8Bytes v ++ rest))
    (utf8Bytes_ne_empty k hk_ne)
    (strAll_utf8Bytes is_param_name_char k hk2 is_name_char_lt)
    (by intro b hb; injection hb with hb; subst hb; rfl)]
  dsimp only
  have htag : tagEq (61 :: (utf8Bytes v ++ rest)) = some (utf8Bytes v ++ rest) := rfl
  rw [htag]
  dsimp only
  rw [takeW1_append is_param_value_char (utf8Bytes v) rest
    (utf8Bytes_ne_empty v hv_ne)
    (strAll_utf8Bytes is_param_value_char v hv2 is_value_char_lt)
    (fun b hb => (hrest b hb).1)]
  dsimp only
  rw [bytesToString_utf8Bytes k (strAll_lt_chars _ k hk2 is_name_char_lt),
    bytesToString_utf8Bytes v (strAll_lt_chars _ v hv2 is_value_char_lt)]
  cases hr : rest with
  | nil => rfl
  | cons a t =>
      have ha : a ≠ 44 := (hrest a (by rw [hr]; rfl)).2
      split
      · next heq => injection heq with h1 _; exact absurd h1 ha
      · rfl

theorem get_param_elem_comma (k v : String) (rest : List Nat)
    (hk : wfName k = true) (hv : wfValue v = true) :
    get_param_elem (utf8Bytes k ++ 61 :: (utf8Bytes v ++ 44 :: rest)) =
      some ((k, v), rest) := by
  unfold get_param_elem
  obtain ⟨hk_ne, hk2⟩ := wfName_spec k hk
  obtain ⟨hv_ne, hv2⟩ := wfValue_spec v hv
  rw [takeW1_append is_param_name_char (utf8Bytes k) (61 :: (utf8Bytes v ++ 44 :: rest))
    (utf8Bytes_ne_empty k hk_ne)
    (strAll_utf8Bytes is_param_name_char k hk2 is_name_char_lt)
    (by intro b hb; injection hb with hb; subst hb; rfl)]
  dsimp only
  have htag : tagEq (61 :: (utf8Bytes v ++ 44 :: rest)) = some (utf8Bytes v ++ 44 :: rest) := rfl
  rw [htag]
  dsimp only
  rw [takeW1_append is_param_value_char (utf8Bytes v) (44 :: rest)
    (utf8Bytes_ne_empty v hv_ne)
    (strAll_utf8Bytes is_param_value_char v hv2 is_value_char_lt)
    (by intro b hb; injection hb with hb; subst hb; rfl)]
  dsimp only
  rw [bytesToString_utf8Bytes k (strAll_lt_chars _ k hk2 is_name_char_lt),
    bytesToString_utf8Bytes v (strAll_lt_chars _ v hv2 is_value_char_lt)]

theorem utf8_dollar : utf8Bytes "$" = [36] := rfl

theorem utf8_equals_sign : utf8Bytes "=" = [61] := rfl

theorem utf8_comma : utf8Bytes "," = [44] := rfl

theorem utf8_empty : utf8Bytes "" = [] := rfl

theorem keysOf_append (a b : List (String × String)) :
    keysOf (a ++ b) = keysOf a ++ keysOf b := by
  simp [keysOf]

theorem nodup_split_mid (acc t : List (String × String)) (k : String) (v : String)
    (h : (keysOf (acc ++ (k, v) :: t)).Nodup) :
    k ∉ keysOf acc ∧ (keysOf ((acc ++ [(k, v)]) ++ t)).Nodup := by
  constructor
  · rw [keysOf_append] at h
    rw [List.nodup_append] at h
    intro hc
    exact h.2.2 hc (by simp [keysOf])
  · have : (acc ++ [(k, v)]) ++ t = acc ++ (k, v) :: t := by simp
    rw [this]
    exact h

theorem getParamsAux_append (ps : List (String × String)) :
    ∀ (fuel : Nat) (acc : List (String × String)) (rest : List Nat),
    (∀ kv ∈ ps, wfName kv.1 = true ∧ wfValue kv.2 = true) →
    (keysOf (acc ++ ps)).Nodup →
    (∀ b, rest.head? = some b →
      is_param_name_char b = false ∧ is_param_value_char b = false ∧ b ≠ 44) →
    (utf8Bytes (paramsString ps) ++ rest).length ≤ fuel →
    getParamsAux fuel acc (utf8Bytes (paramsString ps) ++ rest) = (acc ++ ps, rest) := by
  induction ps with
  | nil =>
      intro fuel acc rest _ _ hrest _
      have hps : paramsString [] = "" := rfl
      rw [hps, utf8_empty, List.nil_append, List.append_nil]
      cases fuel with
      | zero => rfl
      | succ f =>
          have : get_param_elem rest = none :=
            get_param_elem_fail rest (fun b hb => (hrest b hb).1)
          simp only [getParamsAux, this]
  | cons kv t ih =>
      intro fuel acc rest hwf hnd hrest hfuel
      obtain ⟨k, v⟩ := kv
      have hkwf : wfName k = true ∧ wfValue v = true := hwf (k, v) (List.mem_cons_self _ _)
      have hk_ne : k ≠ "" := (wfName_spec k hkwf.1).1
      obtain ⟨hknotin, hnd'⟩ := nodup_split_mid acc t k v hnd
      have hins : insertParam acc k v = acc ++ [(k, v)] := insertParam_notMem acc k v hknotin
      cases t with
      | nil =>
          have hshape : utf8Bytes (paramsString [(k, v)]) ++ rest =
              utf8Bytes k ++ 61 :: (utf8Bytes v ++ rest) := by
            show utf8Bytes (k ++ "=" ++ v ++ paramsStringTail []) ++ rest = _
            have hpt : paramsStringTail ([] : List (String × String)) = "" := rfl
            rw [hpt]
            simp [utf8Bytes_append, utf8_equals_sign, utf8_empty]
          rw [hshape] at hfuel ⊢
          cases fuel with
          | zero =>
              exfalso
              have := utf8Bytes_ne_empty k hk_ne
              simp only [List.length_append, Nat.le_zero] at hfuel
              cases hu : utf8Bytes k with
              | nil => exact this hu
              | cons x xs => rw [hu] at hfuel; simp at hfuel
          | succ f =>
              have helem := get_param_elem_nocomma k v rest hkwf.1 hkwf.2
                (fun b hb => ⟨(hrest b hb).2.1, (hrest b hb).2.2⟩)
              simp only [getParamsAux, helem]
              rw [hins]
              have := ih f (acc ++ [(k, v)]) rest (fun kv hkv => by cases hkv)
                (by simpa using hnd') hrest
                (by
                  have hps : paramsString [] = "" := rfl
                  rw [hps, utf8_empty, List.nil_append]
                  have hlen : (utf8Bytes k ++ 61 :: (utf8Bytes v ++ rest)).length =
                      (utf8Bytes k).length + 1 + (utf8Bytes v).length + rest.length := by
                    simp [List.length_append]
                    omega
                  omega)
              have hps : paramsString [] = "" := rfl
              rw [hps, utf8_empty, List.nil_append] at this
              rw [this]
              simp
      | cons kv2 t2 =>
          have hshape : utf8Bytes (paramsString ((k, v) :: kv2 :: t2)) ++ rest =
              utf8Bytes k ++ 61 ::
                (utf8Bytes v ++ 44 :: (utf8Bytes (paramsString (kv2 :: t2)) ++ rest)) := by
            show utf8Bytes (k ++ "=" ++ v ++ paramsStringTail (kv2 :: t2)) ++ rest = _
            obtain ⟨k2, v2⟩ := kv2
            have hpt : paramsStringTail ((k2, v2) :: t2) =
                "," ++ paramsString ((k2, v2) :: t2) := by
              show "," ++ k2 ++ "=" ++ v2 ++ paramsStringTail t2 =
                "," ++ (k2 ++ "=" ++ v2 ++ paramsStringTail t2)
              simp [String.append_assoc]
            rw [hpt]
            simp [utf8Bytes_append, utf8_equals_sign, utf8_comma]
          rw [hshape] at hfuel ⊢
          cases fuel with
          | zero =>
              exfalso
              have := utf8Bytes_ne_empty k hk_ne
              simp only [List.length_append, Nat.le_zero] at hfuel
              cases hu : utf8Bytes k with
              | nil => exact this hu
              | cons x xs => rw [hu] at hfuel; simp at hfuel
          | succ f =>
              have helem := get_param_elem_comma k v
                (utf8Bytes (paramsString (kv2 :: t2)) ++ rest) hkwf.1 hkwf.2
              simp only [getParamsAux, helem]
              rw [hins]
              have := ih f (acc ++ [(k, v)]) rest
                (fun x hx => hwf x (List.mem_cons_of_mem _ hx))
                (by simpa using hnd') hrest
                (by
                  have hlen : (utf8Bytes k ++ 61 ::
                      (utf8Bytes v ++ 44 ::
                        (utf8Bytes (paramsString (kv2 :: t2)) ++ rest))).length =
                      (utf8Bytes k).length + 1 + (utf8Bytes v).length + 1 +
                        (utf8Bytes (paramsString (kv2 :: t2)) ++ rest).length := by
                    simp [List.length_append]
                    omega
                  omega)
              rw [this]
              simp

theorem head_dollar_cond (X : List Nat) :
    ∀ b, (36 :: X).head? = some b →
      is_param_name_char b = false ∧ is_param_value_char b = false ∧ b ≠ 44 := by
  intro b hb
  injection hb with hb
  subst hb
  exact ⟨rfl, rfl, by omega⟩

theorem head_nil_cond {P : Nat → Prop} : ∀ b, ([] : List Nat).head? = some b → P b := by
  intro b hb
  cases hb

theorem parse_params_append (ps : List (String × String)) (X : List Nat)
    (hwf : ∀ kv ∈ ps, wfName kv.1 = true ∧ wfValue kv.2 = true)
    (hnd : (keysOf ps).Nodup)
    (hX : ∀ b, X.head? = some b →
      is_param_name_char b = false ∧ is_param_value_char b = false ∧ b ≠ 44) :
    parse_params (36 :: (utf8Bytes (paramsString ps) ++ X)) = some (ps, X) := by
  unfold parse_params
  have htag : tagDollar (36 :: (utf8Bytes (paramsString ps) ++ X)) =
      some (utf8Bytes (paramsString ps) ++ X) := rfl
  rw [htag]
  dsimp only
  unfold get_params
  rw [getParamsAux_append ps _ [] X hwf (by simpa using hnd) hX (Nat.le_refl _)]
  simp

theorem from_bytes_of_to_string (d : PHCData) (r : String) (hwf : WFphc d)
    (h : d.to_string = some r) :
    PHCData.from_bytes (utf8Bytes r) = some (canonPHC d) := by
  unfold PHCData.to_string at h
  rw [if_neg hwf.id_ne] at h
  by_cases hps : d.parameters = [] ∧ d.salt = none
  · rw [if_pos hps] at h
    injection h with h
    subst h
    have hbytes : utf8Bytes ("$" ++ d.id) = 36 :: (utf8Bytes d.id ++ []) := by
      simp [utf8Bytes_append, utf8_dollar]
    rw [hbytes]
    unfold PHCData.from_bytes get_phc
    rw [get_id_append d.id [] hwf.id_ne hwf.id_wf head_nil_cond]
    dsimp only
    have hpp : parse_params [] = none := rfl
    rw [hpp]
    dsimp only
    unfold canonPHC
    rw [hps.2]
    dsimp only [mkPHC]
    obtain ⟨hp1, hp2⟩ := hps
    cases d with
    | mk id parameters salt hash =>
        dsimp only at hp1 hp2 ⊢
        subst hp1
        subst hp2
        rfl
  · rw [if_neg hps] at h
    dsimp only at h
    cases hsalt : d.salt with
    | none =>
        rw [hsalt] at h
        dsimp only at h
        injection h with h
        subst h
        have hbytes : utf8Bytes ("$" ++ d.id ++ "$" ++ paramsString d.parameters) =
            36 :: (utf8Bytes d.id ++ (36 :: utf8Bytes (paramsString d.parameters))) := by
          simp [utf8Bytes_append, utf8_dollar]
        rw [hbytes]
        unfold PHCData.from_bytes get_phc
        rw [get_id_append d.id (36 :: utf8Bytes (paramsString d.parameters))
          hwf.id_ne hwf.id_wf (by intro b hb; injection hb with hb; subst hb; rfl)]
        dsimp only
        have hp := parse_params_append d.parameters [] hwf.params_wf hwf.keys_nodup
          head_nil_cond
        rw [List.append_nil] at hp
        rw [hp]
        dsimp only
        have hspart : get_phc_part ([] : List Nat) = none := rfl
        rw [hspart]
        dsimp only
        unfold canonPHC
        rw [hsalt]
        dsimp only [mkPHC]
        cases d with
        | mk id parameters salt hash =>
            dsimp only at hsalt ⊢
            subst hsalt
            rfl
    | some s =>
        rw [hsalt] at h
        dsimp only at h
        have hs_wf := hwf.salt_wf s hsalt
        have hsenc : utf8Bytes (to_b64 s) = encodeB64 s := by
          unfold to_b64
          exact utf8Bytes_bytesToString _ (encodeB64_lt s hs_wf.2)
        cases hhash : d.hash with
        | none =>
            rw [hhash] at h
            dsimp only at h
            injection h with h
            subst h
            have hbytes : utf8Bytes ("$" ++ d.id ++ "$" ++ paramsString d.parameters ++
                "$" ++ to_b64 s) =
                36 :: (utf8Bytes d.id ++ (36 :: (utf8Bytes (paramsString d.parameters) ++
                  (36 :: encodeB64 s)))) := by
              simp [utf8Bytes_append, utf8_dollar, hsenc]
            rw [hbytes]
            unfold PHCData.from_bytes get_phc
            rw [get_id_append d.id (36 :: (utf8Bytes (paramsString d.parameters) ++
              (36 :: encodeB64 s))) hwf.id_ne hwf.id_wf
              (by intro b hb; injection hb with hb; subst hb; rfl)]
            dsimp only
            rw [parse_params_append d.parameters (36 :: encodeB64 s) hwf.params_wf
              hwf.keys_nodup (head_dollar_cond _)]
            dsimp only
            have hsp := get_phc_part_append (encodeB64 s) []
              (encodeB64_is_b64 s hs_wf.2) head_nil_cond
            rw [List.append_nil] at hsp
            rw [hsp]
            dsimp only
            have hhpart : get_phc_part ([] : List Nat) = none := rfl
            rw [hhpart]
            dsimp only
            unfold canonPHC
            rw [hsalt]
            dsimp only [mkPHC]
            rw [from_b64_encodeB64 s hs_wf.1 hs_wf.2]
            cases d with
            | mk id parameters salt hash =>
                dsimp only at hsalt hhash ⊢
                subst hsalt
                subst hhash
                rfl
        | some h2 =>
            rw [hhash] at h
            dsimp only at h
            injection h with h
            subst h
            have hh_wf := hwf.hash_wf h2 hhash
            have hhenc : utf8Bytes (to_b64 h2) = encodeB64 h2 := by
              unfold to_b64
              exact utf8Bytes_bytesToString _ (encodeB64_lt h2 hh_wf.2)
            have hbytes : utf8Bytes ("$" ++ d.id ++ "$" ++ paramsString d.parameters ++
                "$" ++ to_b64 s ++ "$" ++ to_b64 h2) =
                36 :: (utf8Bytes d.id ++ (36 :: (utf8Bytes (paramsString d.parameters) ++
                  (36 :: (encodeB64 s ++ (36 :: encodeB64 h2)))))) := by
              simp [utf8Bytes_append, utf8_dollar, hsenc, hhenc]
            rw [hbytes]
            unfold PHCData.from_bytes get_phc
            rw [get_id_append d.id (36 :: (utf8Bytes (paramsString d.parameters) ++
              (36 :: (encodeB64 s ++ (36 :: encodeB64 h2))))) hwf.id_ne hwf.id_wf
              (by intro b hb; injection hb with hb; subst hb; rfl)]
            dsimp only
            rw [parse_params_append d.parameters (36 :: (encodeB64 s ++ (36 :: encodeB64 h2)))
              hwf.params_wf hwf.keys_nodup (head_dollar_cond _)]
            dsimp only
            rw [get_phc_part_append (encodeB64 s) (36 :: encodeB64 h2)
              (encodeB64_is_b64 s hs_wf.2)
              (by
                intro b hb
                injection hb with hb
                subst hb
                rfl)]
            dsimp only
            have hhp := get_phc_part_append (encodeB64 h2) []
              (encodeB64_is_b64 h2 hh_wf.2) head_nil_cond
            rw [List.append_nil] at hhp
            rw [hhp]
            dsimp only
            unfold canonPHC
            rw [hsalt]
            dsimp only [mkPHC]
            rw [from_b64_encodeB64 s hs_wf.1 hs_wf.2,
              from_b64_encodeB64 h2 hh_wf.1 hh_wf.2]
            cases d with
            | mk id parameters salt hash =>
                dsimp only at hsalt hhash ⊢
                subst hsalt
                subst hhash
                rfl

theorem canonPHC_of_some (d : PHCData) (s : List Nat) (h : d.salt = some s) :
    canonPHC d = d := by
  unfold canonPHC
  rw [h]

theorem canonPHC_of_none (d : PHCData) (h : d.salt = none) :
    canonPHC d = { d with hash := none } := by
  unfold canonPHC
  rw [h]

theorem to_string_hash_irrelevant (d : PHCData) (h : d.salt = none) :
    PHCData.to_string { d with hash := none } = d.to_string := by
  unfold PHCData.to_string
  dsimp only
  rw [h]

theorem canonPHC_to_string (d : PHCData) (r : String) (h : d.to_string = some r) :
    (canonPHC d).to_string = some r := by
  cases hsalt : d.salt with
  | some s => rw [canonPHC_of_some d s hsalt]; exact h
  | none =>
      rw [canonPHC_of_none d hsalt, to_string_hash_irrelevant d hsalt]
      exact h

theorem WFphc_canon (d : PHCData) (h : WFphc d) : WFphc (canonPHC d) := by
  cases hsalt : d.salt with
  | some s => rw [canonPHC_of_some d s hsalt]; exact h
  | none =>
      rw [canonPHC_of_none d hsalt]
      constructor
      · exact h.id_ne
      · exact h.id_wf
      · exact h.params_wf
      · exact h.keys_nodup
      · intro v hv
        rw [show ({ d with hash := none } : PHCData).salt = d.salt from rfl, hsalt] at hv
        cases hv
      · intro v hv
        cases hv

/-! ## Claim theorems for the storage-format codec -/

/-- C4: for every canonical record string `r` — one produced by
serializing a parsed record — parsing `r` succeeds and re-serializing
the result returns exactly `r`. -/
theorem C4_roundtrip (s : List Nat) (d : PHCData) (r : String)
    (hparse : PHCData.from_bytes s = some d) (hser : d.to_string = some r) :
    ∃ d2, PHCData.from_bytes (utf8Bytes r) = some d2 ∧ d2.to_string = some r := by
  have hwf := from_bytes_WF s d hparse
  exact ⟨canonPHC d, from_bytes_of_to_string d r hwf hser, canonPHC_to_string d r hser⟩

/-- Witness for C4 at the four examples named by the claim. -/
theorem C4_roundtrip_witness :
    (PHCData.from_bytes (utf8Bytes "$test") =
        some { id := "test", parameters := [], salt := none, hash := none } ∧
      ∃ d2, PHCData.from_bytes (utf8Bytes "$test") = some d2 ∧
        d2.to_string = some "$test") ∧
    (∃ d2, PHCData.from_bytes (utf8Bytes "$test$i=42") = some d2 ∧
      d2.to_string = some "$test$i=42") ∧
    (∃ d2, PHCData.from_bytes
        (utf8Bytes "$test$i=42$YXN1cmUu$YW55IGNhcm5hbCBwbGVhc3Vy") = some d2 ∧
      d2.to_string = some "$test$i=42$YXN1cmUu$YW55IGNhcm5hbCBwbGVhc3Vy") ∧
    (∃ d2, PHCData.from_bytes
        (utf8Bytes "$pbkdf2$i=1000$RSF4Aw$xvdfA4H7QJQ1w/4jGcjBEIjCvsc") = some d2 ∧
      d2.to_string = some "$pbkdf2$i=1000$RSF4Aw$xvdfA4H7QJQ1w/4jGcjBEIjCvsc") :=
  ⟨⟨by decide,
    C4_roundtrip (utf8Bytes "$test")
      { id := "test", parameters := [], salt := none, hash := none }
      "$test" (by decide) (by decide)⟩,
    C4_roundtrip (utf8Bytes "$test$i=42")
      { id := "test", parameters := [("i", "42")], salt := none, hash := none }
      "$test$i=42" (by decide) (by decide),
    C4_roundtrip (utf8Bytes "$test$i=42$YXN1cmUu$YW55IGNhcm5hbCBwbGVhc3Vy")
      { id := "test", parameters := [("i", "42")],
        salt := some [97, 115, 117, 114, 101, 46],
        hash := some [97, 110, 121, 32, 99, 97, 114, 110, 97, 108, 32, 112,
          108, 101, 97, 115, 117, 114] }
      "$test$i=42$YXN1cmUu$YW55IGNhcm5hbCBwbGVhc3Vy" (by decide) (by decide),
    C4_roundtrip (utf8Bytes "$pbkdf2$i=1000$RSF4Aw$xvdfA4H7QJQ1w/4jGcjBEIjCvsc")
      { id := "pbkdf2", parameters := [("i", "1000")],
        salt := some [69, 33, 120, 3],
        hash := some [198, 247, 95, 3, 129, 251, 64, 148, 53, 195, 254, 35,
          25, 200, 193, 16, 136, 194, 190, 199] }
      "$pbkdf2$i=1000$RSF4Aw$xvdfA4H7QJQ1w/4jGcjBEIjCvsc" (by decide) (by decide)⟩

/-- C3 counterexample: the record `$test$$$QUFB` is accepted by
`PHCData.from_bytes` with a present hash but an absent salt (the raw
salt segment is empty, so its decoding is `none`), refuting
"hash present implies salt present". -/
theorem C3_hash_without_salt_cex :
    PHCData.from_bytes (utf8Bytes "$test$$$QUFB") =
      some { id := "test", parameters := [], salt := none,
             hash := some [65, 65, 65] } := by
  decide

/-- C3 (amended): for every byte string accepted by
`PHCData.from_bytes`, a present hash implies a salt *segment* was
present in the input (though its decoded value may be absent), a
present salt implies a parameter segment was present, and the
identifier is non-empty and drawn from the identifier grammar. -/
theorem C3_parsed_record_invariants (l : List Nat) (d : PHCData)
    (h : PHCData.from_bytes l = some d) :
    (d.hash.isSome = true →
      ∃ raw, get_phc l = some (raw, []) ∧ raw.rawSalt.isSome = true) ∧
    (d.salt.isSome = true →
      ∃ raw, get_phc l = some (raw, []) ∧ raw.params.isSome = true) ∧
    d.id ≠ "" ∧ strAll is_id_char d.id = true := by
  obtain ⟨raw, hg, hd⟩ := from_bytes_raw l d h
  obtain ⟨_, hid_ne, hid_all, _, hsp, hhs⟩ := get_phc_sound l raw [] hg
  refine ⟨?_, ?_, by rw [hd]; exact hid_ne, by rw [hd]; exact hid_all⟩
  · intro hh
    refine ⟨raw, hg, ?_⟩
    apply hhs
    rw [hd] at hh
    simp only [mkPHC] at hh
    cases hrh : raw.rawHash with
    | none => rw [hrh] at hh; simp [from_b64] at hh
    | some _ => rfl
  · intro hs
    refine ⟨raw, hg, ?_⟩
    apply hsp
    rw [hd] at hs
    simp only [mkPHC] at hs
    cases hrs : raw.rawSalt with
    | none => rw [hrs] at hs; simp [from_b64] at hs
    | some _ => rfl

/-- Witness for C3's amended invariants at a concrete accepted record. -/
theorem C3_parsed_record_invariants_witness :
    (∃ raw, get_phc (utf8Bytes "$test$i=42$YXN1cmUu$YW55IGNhcm5hbCBwbGVhc3Vy") =
        some (raw, []) ∧ raw.rawSalt.isSome = true) ∧
    (∃ raw, get_phc (utf8Bytes "$test$i=42$YXN1cmUu$YW55IGNhcm5hbCBwbGVhc3Vy") =
        some (raw, []) ∧ raw.params.isSome = true) ∧
    ("test" : String) ≠ "" ∧ strAll is_id_char "test" = true := by
  have h := C3_parsed_record_invariants
    (utf8Bytes "$test$i=42$YXN1cmUu$YW55IGNhcm5hbCBwbGVhc3Vy")
    { id := "test", parameters := [("i", "42")],
      salt := some [97, 115, 117, 114, 101, 46],
      hash := some [97, 110, 121, 32, 99, 97, 114, 110, 97, 108, 32, 112,
        108, 101, 97, 115, 117, 114] } (by decide)
  exact ⟨h.1 (by decide), h.2.1 (by decide), h.2.2.1, h.2.2.2⟩

/-- C7: the eight malformed inputs named by the claim are rejected, and
(the padded-base64 clause) every input in which a `=` byte is not
immediately followed by a parameter-value byte — in particular a base64
segment padded with `=`, where the `=` is followed by `$`, another `=`
or the end of the record — is rejected. -/
theorem C7_rejections :
    PHCData.from_bytes (utf8Bytes "") = none ∧
    PHCData.from_bytes (utf8Bytes "$") = none ∧
    PHCData.from_bytes (utf8Bytes "$@zerty") = none ∧
    PHCData.from_bytes (utf8Bytes "$test$YXN1cmUu") = none ∧
    PHCData.from_bytes (utf8Bytes "$test$=42") = none ∧
    PHCData.from_bytes (utf8Bytes "$test$i@=42") = none ∧
    PHCData.from_bytes (utf8Bytes "$test$i=?") = none ∧
    PHCData.from_bytes (utf8Bytes "$test$i=") = none ∧
    (∀ l1 l2 : List Nat,
      (∀ b, l2.head? = some b → is_param_value_char b = false) →
      PHCData.from_bytes (l1 ++ 61 :: l2) = none) := by
  refine ⟨by decide, by decide, by decide, by decide, by decide, by decide,
    by decide, by decide, ?_⟩
  intro l1 l2 hl2
  cases hfb : PHCData.from_bytes (l1 ++ 61 :: l2) with
  | none => rfl
  | some d =>
      exfalso
      have hg := from_bytes_goodEq _ d hfb
      obtain ⟨b, t, hy, hb⟩ := goodEq_split l1 l2 hg
      have hfalse := hl2 b (by rw [hy]; rfl)
      rw [hfalse] at hb
      cases hb

/-- Witness for C7's padded-base64 clause: a record whose final base64
segment carries a `=` padding byte is rejected. -/
theorem C7_rejections_witness :
    PHCData.from_bytes
      (utf8Bytes "$test$i=42$YXN1cmUu$YW55IGNhcm5hbCBwbGVhc3V" ++ 61 :: []) = none :=
  C7_rejections.2.2.2.2.2.2.2.2
    (utf8Bytes "$test$i=42$YXN1cmUu$YW55IGNhcm5hbCBwbGVhc3V") []
    (fun b hb => by cases hb)

/-! ## Pipeline lemmas -/

theorem algoId_ne (a : Algorithm) : algoId a ≠ "" := by
  cases a <;> decide

theorem algoId_id_chars (a : Algorithm) : strAll is_id_char (algoId a) = true := by
  cases a <;> decide

theorem parseAlgoId_algoId (a : Algorithm) : parseAlgoId (algoId a) = Except.ok a := by
  cases a <;> rfl

theorem parseNormParam_normStr (n : Normalization) :
    parseNormParam (some (normStr n)) = Except.ok n := by
  cases n <;> rfl

theorem normStr_wfValue (n : Normalization) : wfValue (normStr n) = true := by
  cases n <;> decide

theorem natToStr_wfValue (n : Nat) : wfValue (natToStr n) = true := by
  unfold natToStr
  apply wfValue_bytes
  · exact natToDigits_ne_nil n
  · intro b hb
    have := natToDigits_digits n b hb
    simp only [is_param_value_char, Bool.or_eq_true, Bool.and_eq_true,
      decide_eq_true_eq, beq_iff_eq]
    omega

theorem parseNatParam_natToStr (dflt n : Nat) :
    parseNatParam dflt (some (natToStr n)) = Except.ok n := by
  unfold parseNatParam
  dsimp only
  rw [parseUsize_natToStr n]

theorem to_string_isSome (d : PHCData) (h : d.id ≠ "") :
    ∃ r, d.to_string = some r := by
  unfold PHCData.to_string
  rw [if_neg h]
  by_cases hps : d.parameters = [] ∧ d.salt = none
  · rw [if_pos hps]
    exact ⟨_, rfl⟩
  · rw [if_neg hps]
    dsimp only
    cases d.salt with
    | none => exact ⟨_, rfl⟩
    | some s =>
        cases d.hash with
        | none => exact ⟨_, rfl⟩
        | some h2 => exact ⟨_, rfl⟩

/-! ## Claim theorems for the hashing pipeline -/

/-- C2 (code evaluation at the failing inputs): under the NIST SP
800-63B standard, `finalize` does reject `min_len = 7`, the Argon2
algorithm, NFC and NFD normalization and a too-low iteration count, but
the error it returns is `ErrorCode.InvalidPasswordFormat` (mod.rs line
717), not the `ErrorCode.IncompatibleOption` the claim (and the error
enumeration's own documentation) prescribe. -/
theorem C2_nist_violation_error_code :
    ((HashBuilder.new_std PasswordStorageStandard.Nist80063b).setMinLen 7).finalize =
      Except.error ErrorCode.InvalidPasswordFormat ∧
    ((HashBuilder.new_std PasswordStorageStandard.Nist80063b).setAlgorithm
      Algorithm.Argon2).finalize = Except.error ErrorCode.InvalidPasswordFormat ∧
    ((HashBuilder.new_std PasswordStorageStandard.Nist80063b).setNormalization
      Normalization.Nfc).finalize = Except.error ErrorCode.InvalidPasswordFormat ∧
    ((HashBuilder.new_std PasswordStorageStandard.Nist80063b).setNormalization
      Normalization.Nfd).finalize = Except.error ErrorCode.InvalidPasswordFormat ∧
    (((HashBuilder.new_std PasswordStorageStandard.Nist80063b).setAlgorithm
      Algorithm.Pbkdf2).addParam "iter" "8000").finalize =
        Except.error ErrorCode.InvalidPasswordFormat ∧
    ErrorCode.InvalidPasswordFormat ≠ ErrorCode.IncompatibleOption := by
  refine ⟨rfl, rfl, rfl, rfl, rfl, by decide⟩

/-- C10: the `algorithm` setter stores the new algorithm, replaces the
parameter map with an empty one, and leaves every other builder field
unchanged. -/
theorem C10_algorithm_resets_params (b : HashBuilder) (a : Algorithm) :
    (b.setAlgorithm a).algorithm = a ∧
    (b.setAlgorithm a).parameters = [] ∧
    (b.setAlgorithm a).standard = b.standard ∧
    (b.setAlgorithm a).normalization = b.normalization ∧
    (b.setAlgorithm a).min_len = b.min_len ∧
    (b.setAlgorithm a).max_len = b.max_len ∧
    (b.setAlgorithm a).ref_salt = b.ref_salt ∧
    (b.setAlgorithm a).ref_hash = b.ref_hash ∧
    (b.setAlgorithm a).salt_len = b.salt_len ∧
    (b.setAlgorithm a).length_calculation = b.length_calculation ∧
    (b.setAlgorithm a).version = b.version :=
  ⟨rfl, rfl, rfl, rfl, rfl, rfl, rfl, rfl, rfl, rfl, rfl⟩

/-- C8: `needs_update (some v)` is true exactly when the stored version
is strictly below `v` plus the internal increment (which is 1), and
`needs_update none` is true exactly when it is strictly below the
default baseline `DEFAULT_USER_VERSION + INTERNAL_VERSION = 1`; a policy
parsed from a record with `ver=5` yields `needs_update (some 5) = true`
and `needs_update (some 4) = false`. -/
theorem C8_needs_update (hs : Hasher) (v : Nat) :
    (hs.needs_update (some v) = true ↔ hs.version < v + INTERNAL_VERSION) ∧
    (hs.needs_update none = true ↔
      hs.version < DEFAULT_USER_VERSION + INTERNAL_VERSION) ∧
    INTERNAL_VERSION = 1 ∧
    (HashBuilder.from_phc "$pbkdf2$ver=5").toOption.map
      (fun c => (c.version, c.needs_update (some 5), c.needs_update (some 4))) =
      some (5, true, false) := by
  refine ⟨?_, ?_, rfl, by decide⟩
  · unfold Hasher.needs_update
    simp
  · unfold Hasher.needs_update
    simp

/-- C6: `is_valid` never propagates an error: it returns `false` when
there is no reference hash, when the internal re-derivation fails with
any error, and when the MAC setup fails; being `Bool`-valued it returns
a plain boolean in every case. -/
theorem C6_is_valid_fail_closed (hs : Hasher) (U : UnicodeNorm) (A : AlgoModel)
    (macInit : List Nat → Option (List Nat → List Nat))
    (fs mk : List Nat) (p : String) :
    (hs.ref_hash = none → hs.is_valid U A macInit fs mk p = false) ∧
    (∀ e, hs.do_hash U A fs p = Except.error e →
      hs.is_valid U A macInit fs mk p = false) ∧
    (macInit mk = none → hs.is_valid U A macInit fs mk p = false) := by
  refine ⟨?_, ?_, ?_⟩
  · intro h
    unfold Hasher.is_valid
    rw [h]
  · intro e h
    unfold Hasher.is_valid
    cases hrh : hs.ref_hash with
    | none => rfl
    | some rh =>
        dsimp only
        rw [h]
  · intro h
    unfold Hasher.is_valid
    cases hrh : hs.ref_hash with
    | none => rfl
    | some rh =>
        dsimp only
        cases hdo : hs.do_hash U A fs p with
        | error e => rfl
        | ok duo =>
            dsimp only
            rw [h]

/-- Witness for C6 with each antecedent realized concretely. -/
theorem C6_is_valid_fail_closed_witness :
    HashBuilder.new.toHasher.ref_hash = none ∧
    HashBuilder.new.toHasher.do_hash idNorm toyAlgo [] "x" =
      Except.error ErrorCode.PasswordTooShort ∧
    noMac ([] : List Nat) = none ∧
    HashBuilder.new.toHasher.is_valid idNorm toyAlgo noMac [] [] "x" = false :=
  ⟨by decide, rfl, rfl,
    (C6_is_valid_fail_closed HashBuilder.new.toHasher idNorm toyAlgo noMac
      [] [] "x").1 (by decide)⟩

theorem to_string_ne_none (d : PHCData) (h : d.id ≠ "") :
    d.to_string ≠ none := by
  intro hc
  obtain ⟨r, hr⟩ := to_string_isSome d h
  rw [hr] at hc
  cases hc

theorem do_hash_ok_exists (hs : Hasher) (U : UnicodeNorm) (A : AlgoModel)
    (fs : List Nat) (p : String)
    (hchk : hs.check_password (hs.normalize_password U p) = Except.ok ()) :
    ∃ duo, hs.do_hash U A fs p = Except.ok duo := by
  unfold Hasher.do_hash
  dsimp only
  rw [hchk]
  dsimp only
  split
  · exact ⟨_, rfl⟩
  · next heq => exact absurd heq (to_string_ne_none _ (algoId_ne hs.algorithm))

theorem hash_outcome (hs : Hasher) (U : UnicodeNorm) (A : AlgoModel)
    (fs : List Nat) (p : String) (len : Nat)
    (hlen : hs.check_password (hs.normalize_password U p) =
      (if len < hs.min_len then Except.error ErrorCode.PasswordTooShort
       else if len > hs.max_len then Except.error ErrorCode.PasswordTooLong
       else Except.ok ())) :
    (hs.hash U A fs p = Except.error ErrorCode.PasswordTooShort ↔
      len < hs.min_len) ∧
    (hs.hash U A fs p = Except.error ErrorCode.PasswordTooLong ↔
      hs.min_len ≤ len ∧ hs.max_len < len) ∧
    ((∃ r, hs.hash U A fs p = Except.ok r) ↔
      hs.min_len ≤ len ∧ len ≤ hs.max_len) := by
  by_cases h1 : len < hs.min_len
  · rw [if_pos h1] at hlen
    have hhash : hs.hash U A fs p = Except.error ErrorCode.PasswordTooShort := by
      unfold Hasher.hash Hasher.do_hash
      dsimp only
      rw [hlen]
    refine ⟨⟨fun _ => h1, fun _ => hhash⟩, ?_, ?_⟩
    · constructor
      · intro hq
        rw [hhash] at hq
        exact absurd (Except.error.inj hq) (by decide)
      · intro hq
        omega
    · constructor
      · intro ⟨r, hr⟩
        rw [hhash] at hr
        cases hr
      · intro hq
        omega
  · rw [if_neg h1] at hlen
    by_cases h2 : len > hs.max_len
    · rw [if_pos h2] at hlen
      have hhash : hs.hash U A fs p = Except.error ErrorCode.PasswordTooLong := by
        unfold Hasher.hash Hasher.do_hash
        dsimp only
        rw [hlen]
      refine ⟨?_, ⟨fun _ => ⟨by omega, h2⟩, fun _ => hhash⟩, ?_⟩
      · constructor
        · intro hq
          rw [hhash] at hq
          exact absurd (Except.error.inj hq) (by decide)
        · intro hq
          omega
      · constructor
        · intro ⟨r, hr⟩
          rw [hhash] at hr
          cases hr
        · intro hq
          omega
    · rw [if_neg h2] at hlen
      obtain ⟨duo, hduo⟩ := do_hash_ok_exists hs U A fs p hlen
      have hhash : hs.hash U A fs p = Except.ok duo.formated := by
        unfold Hasher.hash
        rw [hduo]
      refine ⟨?_, ?_, ?_⟩
      · constructor
        · intro hq
          rw [hhash] at hq
          cases hq
        · intro hq
          omega
      · constructor
        · intro hq
          rw [hhash] at hq
          cases hq
        · intro hq
          omega
      · exact ⟨fun _ => ⟨by omega, by omega⟩, fun _ => ⟨duo.formated, hhash⟩⟩

/-- C5 (amended): `hash` fails with `PasswordTooShort` exactly when the
configured length metric of the normalized password is below `min_len`;
it fails with `PasswordTooLong` exactly when the metric is at least
`min_len` (the too-short check runs first) and above `max_len`; and it
succeeds exactly when the metric lies within `[min_len, max_len]`. -/
theorem C5_length_policy (U : UnicodeNorm) (A : AlgoModel) (fs : List Nat)
    (hs : Hasher) (p : String) :
    (hs.hash U A fs p = Except.error ErrorCode.PasswordTooShort ↔
      (match hs.length_calculation with
       | LengthCalculationMethod.Bytes =>
           (utf8Bytes (hs.normalize_password U p)).length
       | LengthCalculationMethod.Characters =>
           (hs.normalize_password U p).data.length) < hs.min_len) ∧
    (hs.hash U A fs p = Except.error ErrorCode.PasswordTooLong ↔
      hs.min_len ≤
        (match hs.length_calculation with
         | LengthCalculationMethod.Bytes =>
             (utf8Bytes (hs.normalize_password U p)).length
         | LengthCalculationMethod.Characters =>
             (hs.normalize_password U p).data.length) ∧
      hs.max_len <
        (match hs.length_calculation with
         | LengthCalculationMethod.Bytes =>
             (utf8Bytes (hs.normalize_password U p)).length
         | LengthCalculationMethod.Characters =>
             (hs.normalize_password U p).data.length)) ∧
    ((∃ r, hs.hash U A fs p = Except.ok r) ↔
      hs.min_len ≤
        (match hs.length_calculation with
         | LengthCalculationMethod.Bytes =>
             (utf8Bytes (hs.normalize_password U p)).length
         | LengthCalculationMethod.Characters =>
             (hs.normalize_password U p).data.length) ∧
      (match hs.length_calculation with
       | LengthCalculationMethod.Bytes =>
           (utf8Bytes (hs.normalize_password U p)).length
       | LengthCalculationMethod.Characters =>
           (hs.normalize_password U p).data.length) ≤ hs.max_len) :=
  hash_outcome hs U A fs p _ rfl

/-- C5 counterexample: with a builder-made policy whose bounds are
`min_len = 10 > max_len = 5` and the 7-character password `1234567`,
the metric exceeds `max_len`, yet `hash` fails with `PasswordTooShort`
(the too-short check runs first), not with `PasswordTooLong` as the
claim's "fails with PasswordTooLong iff metric > max_len" demands. -/
theorem C5_short_takes_precedence_cex :
    ((((HashBuilder.new.setMinLen 10).setMaxLen 5).setNormalization
        Normalization.None).toHasher.hash idNorm toyAlgo [1] "1234567" =
      Except.error ErrorCode.PasswordTooShort) ∧
    ¬ ((((HashBuilder.new.setMinLen 10).setMaxLen 5).setNormalization
        Normalization.None).toHasher.hash idNorm toyAlgo [1] "1234567" =
      Except.error ErrorCode.PasswordTooLong) ∧
    ((((HashBuilder.new.setMinLen 10).setMaxLen 5).setNormalization
        Normalization.None).toHasher.max_len <
      (((((HashBuilder.new.setMinLen 10).setMaxLen 5).setNormalization
        Normalization.None).toHasher.normalize_password idNorm
          "1234567").data.length)) ∧
    ((((HashBuilder.new.setMinLen 10).setMaxLen 5).setNormalization
        Normalization.None).finalize =
      Except.ok ((((HashBuilder.new.setMinLen 10).setMaxLen 5).setNormalization
        Normalization.None).toHasher)) := by
  refine ⟨rfl, ?_, by decide, rfl⟩
  intro hc
  exact absurd (Except.error.inj hc) (by decide)

/-- C9: the `version` setter stores the given version plus the internal
increment 1, so a finalized policy reports `needs_update (some v) = false`
and `needs_update (some (v+1)) = true`; `from_phc`, by contrast, stores a
parsed `ver` value verbatim. -/
theorem C9_version_increment (b : HashBuilder) (v : Nat) :
    (b.setVersion v).version = v + INTERNAL_VERSION ∧
    (∀ hs, (b.setVersion v).finalize = Except.ok hs →
      hs.needs_update (some v) = false ∧ hs.needs_update (some (v + 1)) = true) ∧
    (∀ n hs, HashBuilder.from_phc ("$pbkdf2$ver=" ++ natToStr n) = Except.ok hs →
      hs.version = n) := by
  refine ⟨rfl, ?_, ?_⟩
  · intro hs hfin
    have hver : hs.version = v + INTERNAL_VERSION := by
      unfold HashBuilder.finalize at hfin
      split at hfin
      · split at hfin
        · injection hfin with h
          rw [← h]
          rfl
        · cases hfin
      · injection hfin with h
        rw [← h]
        rfl
    constructor
    · unfold Hasher.needs_update
      rw [hver]
      simp only [decide_eq_false_iff_not]
      unfold INTERNAL_VERSION
      omega
    · unfold Hasher.needs_update
      rw [hver]
      simp only [decide_eq_true_eq]
      unfold INTERNAL_VERSION
      omega
  · intro n hs hfp
    have hb : PHCData.from_bytes (utf8Bytes ("$pbkdf2$ver=" ++ natToStr n)) =
        some { id := "pbkdf2", parameters := [("ver", natToStr n)],
               salt := none, hash := none } := by
      have h3 : utf8Bytes (paramsString [("ver", natToStr n)]) =
          [118, 101, 114, 61] ++ natToDigits n := by
        show utf8Bytes ("ver" ++ "=" ++ natToStr n ++ paramsStringTail []) = _
        have h4 : paramsStringTail ([] : List (String × String)) = "" := rfl
        rw [h4]
        simp only [utf8Bytes_append, utf8Bytes_natToStr, utf8_empty, List.append_nil]
        have h5 : utf8Bytes "ver" = [118, 101, 114] := by decide
        have h6 : utf8Bytes "=" = [61] := by decide
        rw [h5, h6]
        simp [utf8Bytes_natToStr]
      have hshape : utf8Bytes ("$pbkdf2$ver=" ++ natToStr n) =
          36 :: (utf8Bytes "pbkdf2" ++
            (36 :: (utf8Bytes (paramsString [("ver", natToStr n)]) ++ []))) := by
        rw [utf8Bytes_append, h3]
        have h1 : utf8Bytes "$pbkdf2$ver=" =
            [36, 112, 98, 107, 100, 102, 50, 36, 118, 101, 114, 61] := by decide
        have h2 : utf8Bytes "pbkdf2" = [112, 98, 107, 100, 102, 50] := by decide
        rw [h1, h2]
        simp [utf8Bytes_natToStr]
      rw [hshape]
      unfold PHCData.from_bytes get_phc
      rw [get_id_append "pbkdf2" _ (by decide) (by decide)
        (by intro x hx; injection hx with hx; subst hx; rfl)]
      dsimp only
      rw [parse_params_append [("ver", natToStr n)] []
        (by
          intro kv hkv
          simp only [List.mem_singleton] at hkv
          subst hkv
          constructor
          · show wfName "ver" = true
            decide
          · show wfValue (natToStr n) = true
            exact natToStr_wfValue n)
        (by simp [keysOf])
        head_nil_cond]
      dsimp only
      have hsp : get_phc_part ([] : List Nat) = none := rfl
      rw [hsp]
      rfl
    unfold HashBuilder.from_phc at hfp
    rw [hb] at hfp
    dsimp only at hfp
    have hr1 : removeParam [("ver", natToStr n)] "norm" =
        (none, [("ver", natToStr n)]) := by
      apply removeParam_notMem
      simp [keysOf]
    rw [hr1] at hfp
    dsimp only at hfp
    have hr2 : removeParam [("ver", natToStr n)] "ver" = (some (natToStr n), []) := by
      simp [removeParam]
    rw [hr2] at hfp
    dsimp only at hfp
    rw [parseNatParam_natToStr (DEFAULT_USER_VERSION + INTERNAL_VERSION) n] at hfp
    dsimp only at hfp
    unfold HashBuilder.finalize at hfp
    dsimp only at hfp
    injection hfp with hfp
    rw [← hfp]
    rfl

/-- Witness for C9 at `version(3)` and a `ver=5` record. -/
theorem C9_version_increment_witness :
    ((HashBuilder.new.setVersion 3).version = 3 + INTERNAL_VERSION) ∧
    ((HashBuilder.new.setVersion 3).finalize =
      Except.ok (HashBuilder.new.setVersion 3).toHasher) ∧
    ((HashBuilder.new.setVersion 3).toHasher.needs_update (some 3) = false ∧
      (HashBuilder.new.setVersion 3).toHasher.needs_update (some 4) = true) ∧
    HashBuilder.from_phc ("$pbkdf2$ver=" ++ natToStr 5) =
      Except.ok { normalization := Normalization.Nfkc, min_len := 8, max_len := 128, algorithm := Algorithm.Pbkdf2, parameters := [], ref_salt := none, ref_hash := none, salt_len := 16, length_calculation := LengthCalculationMethod.Characters, version := 5 } ∧
    ({ normalization := Normalization.Nfkc, min_len := 8, max_len := 128, algorithm := Algorithm.Pbkdf2, parameters := [], ref_salt := none, ref_hash := none, salt_len := 16, length_calculation := LengthCalculationMethod.Characters, version := 5 } : Hasher).version = 5 :=
  have hfp : HashBuilder.from_phc ("$pbkdf2$ver=" ++ natToStr 5) =
      Except.ok { normalization := Normalization.Nfkc, min_len := 8, max_len := 128, algorithm := Algorithm.Pbkdf2, parameters := [], ref_salt := none, ref_hash := none, salt_len := 16, length_calculation := LengthCalculationMethod.Characters, version := 5 } := rfl
  ⟨(C9_version_increment HashBuilder.new 3).1,
    rfl,
    (C9_version_increment HashBuilder.new 3).2.1 _ rfl,
    hfp,
    (C9_version_increment HashBuilder.new 3).2.2 5 _ hfp⟩

theorem do_hash_raw (hs : Hasher) (U : UnicodeNorm) (A : AlgoModel)
    (fs : List Nat) (p : String)
    (hchk : hs.check_password (hs.normalize_password U p) = Except.ok ()) :
    ∃ duo, hs.do_hash U A fs p = Except.ok duo ∧
      duo.raw = A.run hs.algorithm hs.normalization hs.parameters
        (match hs.ref_salt with | some s => s | none => fs)
        (utf8Bytes (hs.normalize_password U p)) := by
  unfold Hasher.do_hash
  dsimp only
  rw [hchk]
  dsimp only
  split
  · exact ⟨_, rfl, rfl⟩
  · next heq => exact absurd heq (to_string_ne_none _ (algoId_ne hs.algorithm))

theorem report_key_notMem (A : AlgoModel) (hA : AlgoModelWF A) (a : Algorithm)
    (ps : List (String × String)) (k : String) (hk : k ∈ bookkeepingKeys) :
    k ∉ keysOf (A.report a ps) := by
  intro hc
  simp only [keysOf, List.mem_map] at hc
  obtain ⟨kv, hkv, hfst⟩ := hc
  have := hA.report_keys a ps kv hkv
  rw [hfst] at this
  exact this hk

theorem do_hash_params_shape (A : AlgoModel) (hA : AlgoModelWF A) (a : Algorithm)
    (ps : List (String × String)) (ns ls mins maxs vers : String) :
    insertParam (insertParam (insertParam (insertParam
      (insertParam (A.report a ps) "norm" ns) "len-calc" ls) "pmin" mins)
      "pmax" maxs) "ver" vers =
    A.report a ps ++ [("norm", ns), ("len-calc", ls), ("pmin", mins),
      ("pmax", maxs), ("ver", vers)] := by
  have h0 := report_key_notMem A hA a ps "norm" (by decide)
  have h1 := report_key_notMem A hA a ps "len-calc" (by decide)
  have h2 := report_key_notMem A hA a ps "pmin" (by decide)
  have h3 := report_key_notMem A hA a ps "pmax" (by decide)
  have h4 := report_key_notMem A hA a ps "ver" (by decide)
  rw [insertParam_notMem (A.report a ps) "norm" ns h0]
  rw [insertParam_notMem (A.report a ps ++ [("norm", ns)]) "len-calc" ls (by
    rw [keysOf_append]
    intro hc
    rcases List.mem_append.mp hc with hc | hc
    · exact h1 hc
    · simp [keysOf] at hc)]
  rw [insertParam_notMem (A.report a ps ++ [("norm", ns)] ++ [("len-calc", ls)]) "pmin" mins (by
    rw [keysOf_append, keysOf_append]
    intro hc
    rcases List.mem_append.mp hc with hc | hc
    · rcases List.mem_append.mp hc with hc | hc
      · exact h2 hc
      · simp [keysOf] at hc
    · simp [keysOf] at hc)]
  rw [insertParam_notMem (A.report a ps ++ [("norm", ns)] ++ [("len-calc", ls)] ++ [("pmin", mins)]) "pmax" maxs (by
    rw [keysOf_append, keysOf_append, keysOf_append]
    intro hc
    rcases List.mem_append.mp hc with hc | hc
    · rcases List.mem_append.mp hc with hc | hc
      · rcases List.mem_append.mp hc with hc | hc
        · exact h3 hc
        · simp [keysOf] at hc
      · simp [keysOf] at hc
    · simp [keysOf] at hc)]
  rw [insertParam_notMem (A.report a ps ++ [("norm", ns)] ++ [("len-calc", ls)] ++ [("pmin", mins)] ++ [("pmax", maxs)]) "ver" vers (by
    rw [keysOf_append, keysOf_append, keysOf_append, keysOf_append]
    intro hc
    rcases List.mem_append.mp hc with hc | hc
    · rcases List.mem_append.mp hc with hc | hc
      · rcases List.mem_append.mp hc with hc | hc
        · rcases List.mem_append.mp hc with hc | hc
          · exact h4 hc
          · simp [keysOf] at hc
        · simp [keysOf] at hc
      · simp [keysOf] at hc
    · simp [keysOf] at hc)]
  simp

theorem is_valid_same_run (c : Hasher) (U : UnicodeNorm) (A : AlgoModel)
    (macInit : List Nat → Option (List Nat → List Nat))
    (fs mk : List Nat) (p : String) (rh : List Nat)
    (hrh : c.ref_hash = some rh)
    (hchk : c.check_password (c.normalize_password U p) = Except.ok ())
    (hrun : A.run c.algorithm c.normalization c.parameters
      (match c.ref_salt with | some s => s | none => fs)
      (utf8Bytes (c.normalize_password U p)) = rh)
    (hmk : ∃ f, macInit mk = some f) :
    c.is_valid U A macInit fs mk p = true := by
  unfold Hasher.is_valid
  rw [hrh]
  dsimp only
  obtain ⟨duo, hduo, hraw⟩ := do_hash_raw c U A fs p hchk
  rw [hduo]
  dsimp only
  obtain ⟨f, hf⟩ := hmk
  rw [hf]
  dsimp only
  rw [hraw, hrun]
  simp

theorem is_valid_diff_run (c : Hasher) (U : UnicodeNorm) (A : AlgoModel)
    (macInit : List Nat → Option (List Nat → List Nat))
    (fs mk : List Nat) (p : String) (rh : List Nat)
    (hrh : c.ref_hash = some rh)
    (hrun : A.run c.algorithm c.normalization c.parameters
      (match c.ref_salt with | some s => s | none => fs)
      (utf8Bytes (c.normalize_password U p)) ≠ rh)
    (hinj : ∀ f, macInit mk = some f → Function.Injective f) :
    c.is_valid U A macInit fs mk p = false := by
  unfold Hasher.is_valid
  rw [hrh]
  dsimp only
  cases hchk : c.check_password (c.normalize_password U p) with
  | error e =>
      have hdh : c.do_hash U A fs p = Except.error e := by
        unfold Hasher.do_hash
        dsimp only
        rw [hchk]
      rw [hdh]
  | ok u =>
      cases u
      obtain ⟨duo, hduo, hraw⟩ := do_hash_raw c U A fs p hchk
      rw [hduo]
      dsimp only
      cases hf : macInit mk with
      | none => rfl
      | some f =>
          dsimp only
          rw [hraw]
          simp only [decide_eq_false_iff_not]
          intro hc
          exact hrun (hinj f hf hc).symm

theorem toyAlgoWF : AlgoModelWF toyAlgo := by
  constructor
  · intro a ps kv hkv
    simp [toyAlgo] at hkv
  · intro a ps kv hkv
    simp [toyAlgo] at hkv
  · intro a ps
    simp [toyAlgo, keysOf]
  · intro a n ps s x
    rfl
  · intro a n ps s x
    simp [toyAlgo]
  · intro a n ps s x b hb
    simp only [toyAlgo, List.mem_cons, List.mem_map] at hb
    rcases hb with rfl | ⟨c, _, rfl⟩
    · omega
    · exact Nat.mod_lt _ (by omega)

theorem pipeline_phc_WF (A : AlgoModel) (hA : AlgoModelWF A) (hs : Hasher)
    (saltUsed rawHash : List Nat) (hne : saltUsed ≠ []) (hlt : ∀ x ∈ saltUsed, x < 256)
    (hrne : rawHash ≠ []) (hrlt : ∀ x ∈ rawHash, x < 256) :
    WFphc (PHCData.mk (algoId hs.algorithm) (A.report hs.algorithm hs.parameters ++ [("norm", normStr hs.normalization), ("len-calc", (match hs.length_calculation with | LengthCalculationMethod.Bytes => "bytes" | LengthCalculationMethod.Characters => "chars")), ("pmin", natToStr hs.min_len), ("pmax", natToStr hs.max_len), ("ver", natToStr hs.version)]) (some saltUsed) (some rawHash)) := by
  refine ⟨algoId_ne hs.algorithm, algoId_id_chars hs.algorithm, ?_, ?_, ?_, ?_⟩
  · intro kv hkv
    rcases List.mem_append.mp hkv with hc | hc
    · exact hA.report_wf hs.algorithm hs.parameters kv hc
    · simp only [List.mem_cons, List.not_mem_nil, or_false] at hc
      rcases hc with rfl | rfl | rfl | rfl | rfl
      · exact ⟨(by decide : wfName "norm" = true), normStr_wfValue hs.normalization⟩
      · refine ⟨(by decide : wfName "len-calc" = true), ?_⟩
        cases hs.length_calculation <;> decide
      · exact ⟨(by decide : wfName "pmin" = true), natToStr_wfValue hs.min_len⟩
      · exact ⟨(by decide : wfName "pmax" = true), natToStr_wfValue hs.max_len⟩
      · exact ⟨(by decide : wfName "ver" = true), natToStr_wfValue hs.version⟩
  · dsimp only
    rw [keysOf_append]
    refine List.nodup_append.mpr ⟨hA.report_nodup hs.algorithm hs.parameters, ?_, ?_⟩
    · exact (by decide : (["norm", "len-calc", "pmin", "pmax", "ver"] : List String).Nodup)
    · intro k hk1 hk2
      have hk2b : k ∈ bookkeepingKeys := by
        simpa [keysOf, bookkeepingKeys] using hk2
      exact report_key_notMem A hA hs.algorithm hs.parameters k hk2b hk1
  · intro v hv
    have hv2 : some saltUsed = some v := hv
    injection hv2 with h
    subst h
    exact ⟨hne, hlt⟩
  · intro v hv
    have hv2 : some rawHash = some v := hv
    injection hv2 with h
    subst h
    exact ⟨hrne, hrlt⟩


/-- C1: for every password accepted by the length policy of a `Hasher`
built by `HashBuilder::finalize`, hashing the password, rebuilding a
checker from the produced record via `HashBuilder::from_phc` and
verifying yields `is_valid(p) = true`, and `is_valid(p ++ "x") = false`
whenever the algorithm separates the two inputs; the MAC setup must
succeed for the accepting run and be injective for the rejecting one. -/
theorem C1_hash_then_verify (U : UnicodeNorm) (A : AlgoModel)
    (macInit : List Nat → Option (List Nat → List Nat))
    (b : HashBuilder) (hs : Hasher) (p : String)
    (freshSalt fs2 fs3 macKey1 macKey2 : List Nat)
    (hA : AlgoModelWF A)
    (_hfin : b.finalize = Except.ok hs)
    (hchk : hs.check_password (hs.normalize_password U p) = Except.ok ())
    (hne : (match hs.ref_salt with | some s => s | none => freshSalt) ≠ [])
    (hlt : ∀ x ∈ (match hs.ref_salt with | some s => s | none => freshSalt), x < 256)
    (hm1 : (macInit macKey1).isSome = true)
    (hm2 : ∀ f, macInit macKey2 = some f → Function.Injective f)
    (hdiff : A.run hs.algorithm hs.normalization hs.parameters
        (match hs.ref_salt with | some s => s | none => freshSalt)
        (utf8Bytes (hs.normalize_password U (p ++ "x"))) ≠
      A.run hs.algorithm hs.normalization hs.parameters
        (match hs.ref_salt with | some s => s | none => freshSalt)
        (utf8Bytes (hs.normalize_password U p))) :
    ∃ record checker,
      hs.hash U A freshSalt p = Except.ok record ∧
      HashBuilder.from_phc record = Except.ok checker ∧
      checker.is_valid U A macInit fs2 macKey1 p = true ∧
      checker.is_valid U A macInit fs3 macKey2 (p ++ "x") = false := by
  obtain ⟨saltUsed, hSU⟩ : ∃ s, (match hs.ref_salt with | some s0 => s0 | none => freshSalt) = s := ⟨_, rfl⟩
  rw [hSU] at hne hlt hdiff
  obtain ⟨rawHash, hRH⟩ : ∃ r, A.run hs.algorithm hs.normalization hs.parameters saltUsed (utf8Bytes (hs.normalize_password U p)) = r := ⟨_, rfl⟩
  rw [hRH] at hdiff
  have hrne : rawHash ≠ [] := by
    rw [← hRH]
    exact hA.run_ne hs.algorithm hs.normalization hs.parameters saltUsed (utf8Bytes (hs.normalize_password U p))
  have hrlt : ∀ x ∈ rawHash, x < 256 := by
    rw [← hRH]
    exact hA.run_bytes hs.algorithm hs.normalization hs.parameters saltUsed (utf8Bytes (hs.normalize_password U p))
  obtain ⟨record, hrec⟩ := to_string_isSome (PHCData.mk (algoId hs.algorithm) (A.report hs.algorithm hs.parameters ++ [("norm", normStr hs.normalization), ("len-calc", (match hs.length_calculation with | LengthCalculationMethod.Bytes => "bytes" | LengthCalculationMethod.Characters => "chars")), ("pmin", natToStr hs.min_len), ("pmax", natToStr hs.max_len), ("ver", natToStr hs.version)]) (some saltUsed) (some rawHash)) (algoId_ne hs.algorithm)
  have hdo : hs.do_hash U A freshSalt p = Except.ok (HashedDuo.mk rawHash record) := by
    unfold Hasher.do_hash
    dsimp only
    rw [hchk]
    dsimp only
    rw [hSU, hRH, do_hash_params_shape A hA hs.algorithm hs.parameters (normStr hs.normalization) (match hs.length_calculation with | LengthCalculationMethod.Bytes => "bytes" | LengthCalculationMethod.Characters => "chars") (natToStr hs.min_len) (natToStr hs.max_len) (natToStr hs.version), hrec]
  have hhash : hs.hash U A freshSalt p = Except.ok record := by
    unfold Hasher.hash
    rw [hdo]
  have hwf := pipeline_phc_WF A hA hs saltUsed rawHash hne hlt hrne hrlt
  have hparse := from_bytes_of_to_string _ record hwf hrec
  rw [canonPHC_of_some _ saltUsed rfl] at hparse
  have hlcp : parseLcParam (some (match hs.length_calculation with | LengthCalculationMethod.Bytes => "bytes" | LengthCalculationMethod.Characters => "chars")) = Except.ok hs.length_calculation := by
    cases hs.length_calculation <;> rfl
  have hnm : ∀ k ∈ bookkeepingKeys, k ∉ keysOf (A.report hs.algorithm hs.parameters) := fun k hk => report_key_notMem A hA hs.algorithm hs.parameters k hk
  have hshp1 : A.report hs.algorithm hs.parameters ++ [("len-calc", (match hs.length_calculation with | LengthCalculationMethod.Bytes => "bytes" | LengthCalculationMethod.Characters => "chars")), ("pmin", natToStr hs.min_len), ("pmax", natToStr hs.max_len), ("ver", natToStr hs.version)] = (A.report hs.algorithm hs.parameters ++ [("len-calc", (match hs.length_calculation with | LengthCalculationMethod.Bytes => "bytes" | LengthCalculationMethod.Characters => "chars")), ("pmin", natToStr hs.min_len), ("pmax", natToStr hs.max_len)]) ++ [("ver", natToStr hs.version)] := by simp
  have hshp2 : A.report hs.algorithm hs.parameters ++ [("len-calc", (match hs.length_calculation with | LengthCalculationMethod.Bytes => "bytes" | LengthCalculationMethod.Characters => "chars")), ("pmin", natToStr hs.min_len), ("pmax", natToStr hs.max_len)] = (A.report hs.algorithm hs.parameters ++ [("len-calc", (match hs.length_calculation with | LengthCalculationMethod.Bytes => "bytes" | LengthCalculationMethod.Characters => "chars"))]) ++ [("pmin", natToStr hs.min_len), ("pmax", natToStr hs.max_len)] := by simp
  have hver : ("ver" : String) ∉ keysOf (A.report hs.algorithm hs.parameters ++ [("len-calc", (match hs.length_calculation with | LengthCalculationMethod.Bytes => "bytes" | LengthCalculationMethod.Characters => "chars")), ("pmin", natToStr hs.min_len), ("pmax", natToStr hs.max_len)]) := by
    rw [keysOf_append]
    intro hc
    rcases List.mem_append.mp hc with hc | hc
    · exact hnm "ver" (by decide) hc
    · simp [keysOf] at hc
  have hpmin : ("pmin" : String) ∉ keysOf (A.report hs.algorithm hs.parameters ++ [("len-calc", (match hs.length_calculation with | LengthCalculationMethod.Bytes => "bytes" | LengthCalculationMethod.Characters => "chars"))]) := by
    rw [keysOf_append]
    intro hc
    rcases List.mem_append.mp hc with hc | hc
    · exact hnm "pmin" (by decide) hc
    · simp [keysOf] at hc
  have hpmax : ("pmax" : String) ∉ keysOf (A.report hs.algorithm hs.parameters ++ [("len-calc", (match hs.length_calculation with | LengthCalculationMethod.Bytes => "bytes" | LengthCalculationMethod.Characters => "chars"))]) := by
    rw [keysOf_append]
    intro hc
    rcases List.mem_append.mp hc with hc | hc
    · exact hnm "pmax" (by decide) hc
    · simp [keysOf] at hc
  have hrm1 : removeParam (A.report hs.algorithm hs.parameters ++ [("norm", normStr hs.normalization), ("len-calc", (match hs.length_calculation with | LengthCalculationMethod.Bytes => "bytes" | LengthCalculationMethod.Characters => "chars")), ("pmin", natToStr hs.min_len), ("pmax", natToStr hs.max_len), ("ver", natToStr hs.version)]) "norm" = (some (normStr hs.normalization), A.report hs.algorithm hs.parameters ++ [("len-calc", (match hs.length_calculation with | LengthCalculationMethod.Bytes => "bytes" | LengthCalculationMethod.Characters => "chars")), ("pmin", natToStr hs.min_len), ("pmax", natToStr hs.max_len), ("ver", natToStr hs.version)]) := removeParam_append _ _ _ _ (hnm "norm" (by decide))
  have hrm2 : removeParam ((A.report hs.algorithm hs.parameters ++ [("len-calc", (match hs.length_calculation with | LengthCalculationMethod.Bytes => "bytes" | LengthCalculationMethod.Characters => "chars")), ("pmin", natToStr hs.min_len), ("pmax", natToStr hs.max_len)]) ++ [("ver", natToStr hs.version)]) "ver" = (some (natToStr hs.version), (A.report hs.algorithm hs.parameters ++ [("len-calc", (match hs.length_calculation with | LengthCalculationMethod.Bytes => "bytes" | LengthCalculationMethod.Characters => "chars")), ("pmin", natToStr hs.min_len), ("pmax", natToStr hs.max_len)]) ++ []) := removeParam_append _ _ _ _ hver
  have hrm3 : removeParam ((A.report hs.algorithm hs.parameters ++ [("len-calc", (match hs.length_calculation with | LengthCalculationMethod.Bytes => "bytes" | LengthCalculationMethod.Characters => "chars"))]) ++ [("pmin", natToStr hs.min_len), ("pmax", natToStr hs.max_len)]) "pmin" = (some (natToStr hs.min_len), (A.report hs.algorithm hs.parameters ++ [("len-calc", (match hs.length_calculation with | LengthCalculationMethod.Bytes => "bytes" | LengthCalculationMethod.Characters => "chars"))]) ++ [("pmax", natToStr hs.max_len)]) := removeParam_append _ _ _ _ hpmin
  have hrm4 : removeParam ((A.report hs.algorithm hs.parameters ++ [("len-calc", (match hs.length_calculation with | LengthCalculationMethod.Bytes => "bytes" | LengthCalculationMethod.Characters => "chars"))]) ++ [("pmax", natToStr hs.max_len)]) "pmax" = (some (natToStr hs.max_len), (A.report hs.algorithm hs.parameters ++ [("len-calc", (match hs.length_calculation with | LengthCalculationMethod.Bytes => "bytes" | LengthCalculationMethod.Characters => "chars"))]) ++ []) := removeParam_append _ _ _ _ hpmax
  have hrm5 : removeParam (A.report hs.algorithm hs.parameters ++ [("len-calc", (match hs.length_calculation with | LengthCalculationMethod.Bytes => "bytes" | LengthCalculationMethod.Characters => "chars"))]) "len-calc" = (some (match hs.length_calculation with | LengthCalculationMethod.Bytes => "bytes" | LengthCalculationMethod.Characters => "chars"), A.report hs.algorithm hs.parameters ++ []) := removeParam_append _ _ _ _ (hnm "len-calc" (by decide))
  have hfp : HashBuilder.from_phc record = Except.ok (Hasher.mk hs.normalization hs.min_len hs.max_len hs.algorithm (A.report hs.algorithm hs.parameters) (some saltUsed) (some rawHash) saltUsed.length hs.length_calculation hs.version) := by
    unfold HashBuilder.from_phc
    rw [hparse]
    dsimp only
    rw [hrm1]
    dsimp only
    rw [parseNormParam_normStr hs.normalization]
    dsimp only
    rw [hshp1, hrm2]
    dsimp only
    rw [parseNatParam_natToStr (DEFAULT_USER_VERSION + INTERNAL_VERSION) hs.version]
    dsimp only
    rw [List.append_nil, hshp2, hrm3]
    dsimp only
    rw [parseNatParam_natToStr std_default.DEFAULT_PASSWORD_MIN_LEN hs.min_len]
    dsimp only
    rw [hrm4]
    dsimp only
    rw [parseNatParam_natToStr std_default.DEFAULT_PASSWORD_MAX_LEN hs.max_len]
    dsimp only
    rw [List.append_nil, hrm5]
    dsimp only
    rw [hlcp]
    dsimp only
    rw [parseAlgoId_algoId hs.algorithm]
    dsimp only
    rw [List.append_nil]
    rfl
  refine ⟨record, Hasher.mk hs.normalization hs.min_len hs.max_len hs.algorithm (A.report hs.algorithm hs.parameters) (some saltUsed) (some rawHash) saltUsed.length hs.length_calculation hs.version, hhash, hfp, ?_, ?_⟩
  · refine is_valid_same_run _ U A macInit fs2 macKey1 p rawHash rfl hchk ?_ (Option.isSome_iff_exists.mp hm1)
    rw [← hRH]
    exact hA.report_run hs.algorithm hs.normalization hs.parameters saltUsed (utf8Bytes (hs.normalize_password U p))
  · refine is_valid_diff_run _ U A macInit fs3 macKey2 (p ++ "x") rawHash rfl ?_ hm2
    intro hc
    exact hdiff ((hA.report_run hs.algorithm hs.normalization hs.parameters saltUsed (utf8Bytes (hs.normalize_password U (p ++ "x")))).symm.trans hc)

/-- Witness for C1: the default policy, the identity normalizer, the toy
capability and the concatenating MAC on the password "aaaaaaaa". -/
theorem C1_hash_then_verify_witness :
    ∃ record checker,
      HashBuilder.new.toHasher.hash idNorm toyAlgo [1, 2, 3, 4] "aaaaaaaa" = Except.ok record ∧
      HashBuilder.from_phc record = Except.ok checker ∧
      checker.is_valid idNorm toyAlgo concatMac [] [] "aaaaaaaa" = true ∧
      checker.is_valid idNorm toyAlgo concatMac [] [] ("aaaaaaaa" ++ "x") = false :=
  C1_hash_then_verify idNorm toyAlgo concatMac HashBuilder.new HashBuilder.new.toHasher
    "aaaaaaaa" [1, 2, 3, 4] [] [] [] [] toyAlgoWF rfl rfl (by decide) (by decide) rfl
    (fun f hf => by injection hf with h2; subst h2; intro a b hab; simpa using hab)
    (by decide)
